import Mathlib

/-!
Verification development for maf2vcf.py, a converter from flat per-sample
genotype call rows to VCF records.  The Python source is shallowly embedded:
strings are modelled as lists of characters via String.data, the Python
exceptions (KeyError on a sample name, KeyError on a field key, AssertionError)
become an explicit error type, and every fallible function returns Except.
-/

/-- The whitespace characters removed by the Python str.strip method. -/
def isPySpace (c : Char) : Bool :=
  c = ' ' || c = '\t' || c = '\n' || c = '\x0d' || c = '\x0b' || c = '\x0c'

/-- str.strip from the right: drop trailing whitespace. -/
def rstripChars (l : List Char) : List Char :=
  (l.reverse.dropWhile isPySpace).reverse

/-- Python str.strip with no argument: drop leading and trailing whitespace. -/
def stripChars (l : List Char) : List Char :=
  rstripChars (l.dropWhile isPySpace)

/-- Python str.split on a comma: every comma separates, empty pieces kept,
the empty string yields one empty piece. -/
def splitComma : List Char → List (List Char)
  | [] => [[]]
  | c :: rest =>
    match splitComma rest with
    | h :: t => if c = ',' then [] :: h :: t else (c :: h) :: t
    | [] => [[]]

/-- Python ",".join on a list of pieces. -/
def joinComma : List (List Char) → List Char
  | [] => []
  | [h] => h
  | h :: h2 :: t => h ++ ',' :: joinComma (h2 :: t)

/-- Apply a function to the last element of a list, as used to describe the
removal of a closing bracket from the final piece. -/
def mapLast (f : List Char → List Char) : List (List Char) → List (List Char)
  | [] => []
  | [a] => [f a]
  | a :: b :: t => a :: mapLast f (b :: t)

/-- Numeric value of a string of decimal digits. -/
def natOfDigits (l : List Char) : Nat :=
  l.foldl (fun acc c => acc * 10 + (c.toNat - '0'.toNat)) 0

/-- Split a leading sign character off, as the Python numeric constructors do. -/
def intSign : List Char → Int × List Char
  | [] => (1, [])
  | c :: r => if c = '+' then (1, r) else if c = '-' then (-1, r) else (1, c :: r)

/-- The Python 2 int constructor applied to a string: optional surrounding
whitespace, an optional sign, then one or more decimal digits.  Returns none
exactly when the constructor raises ValueError. -/
def pyIntParse (s : String) : Option Int :=
  let p := intSign (stripChars s.data)
  if p.2 ≠ [] ∧ p.2.all Char.isDigit then some (p.1 * (natOfDigits p.2 : Int)) else none

/-- The value of a Python float: a finite value kept exactly as a rational of
the decimal literal, or an infinity, or nan. -/
inductive PyFloat where
  | finite (q : ℚ)
  | inf (neg : Bool)
  | nan
  deriving DecidableEq

/-- Parse the optional exponent part of a float literal; the whole remaining
input must be consumed.  Empty input means exponent zero. -/
def parseExpOpt : List Char → Option Int
  | [] => some 0
  | c :: r =>
    if c = 'e' ∨ c = 'E' then
      let p := intSign r
      if p.2 ≠ [] ∧ p.2.all Char.isDigit then some (p.1 * (natOfDigits p.2 : Nat)) else none
    else none

/-- Powers of ten with an integer exponent, used for the exponent of a float
literal. -/
def qpow10 : Int → ℚ
  | .ofNat n => (10 : ℚ) ^ n
  | .negSucc n => 1 / (10 : ℚ) ^ (n + 1)

/-- The magnitude part of a Python float literal, after the optional sign:
digits with an optional fraction, or a fraction alone, then an optional
exponent. -/
def pyFloatMag (l : List Char) : Option ℚ :=
  match l.dropWhile Char.isDigit with
  | c :: r2 =>
    if c = '.' then
      if l.takeWhile Char.isDigit = [] ∧ r2.takeWhile Char.isDigit = [] then none
      else
        match parseExpOpt (r2.dropWhile Char.isDigit) with
        | some e =>
          some (((natOfDigits (l.takeWhile Char.isDigit) : ℚ) +
            (natOfDigits (r2.takeWhile Char.isDigit) : ℚ)
              / (10 : ℚ) ^ (r2.takeWhile Char.isDigit).length) * qpow10 e)
        | none => none
    else
      if l.takeWhile Char.isDigit = [] then none
      else
        match parseExpOpt (c :: r2) with
        | some e => some ((natOfDigits (l.takeWhile Char.isDigit) : ℚ) * qpow10 e)
        | none => none
  | [] =>
    if l.takeWhile Char.isDigit = [] then none
    else
      match parseExpOpt [] with
      | some e => some ((natOfDigits (l.takeWhile Char.isDigit) : ℚ) * qpow10 e)
      | none => none

/-- The Python 2 float constructor applied to a string: optional surrounding
whitespace, an optional sign, then a decimal literal or one of the words inf,
infinity, nan (case insensitive).  Returns none exactly when the constructor
raises ValueError. -/
def pyFloatParse (s : String) : Option PyFloat :=
  let l := stripChars s.data
  let (neg, rest) :=
    match l with
    | [] => (false, ([] : List Char))
    | c :: r => if c = '+' then (false, r) else if c = '-' then (true, r) else (false, c :: r)
  let low := rest.map Char.toLower
  if low = "inf".data ∨ low = "infinity".data then some (.inf neg)
  else if low = "nan".data then some .nan
  else
    match pyFloatMag rest with
    | some q => some (.finite (if neg then -q else q))
    | none => none

/-- The exceptions the embedded code can raise.  Python raises KeyError both
for a sample name missing from the ordering and for a missing field key; the
two sites carry different key payloads, so they are kept apart here.
AssertionError is the failed closing bracket assertion in vcf_format. -/
inductive Err where
  | sampleNotInOrdering (name : String)
  | missingField (key : String)
  | assertionError
  | emptyGroup
  deriving DecidableEq

/-- Decidable equality for Except results, so that concrete runs of the
embedded functions can be checked by evaluation. -/
instance exceptDecEq {ε α : Type} [DecidableEq ε] [DecidableEq α] :
    DecidableEq (Except ε α) := fun a b =>
  match a, b with
  | .ok x, .ok y =>
    if h : x = y then isTrue (by rw [h])
    else isFalse (fun hc => h (by cases hc; rfl))
  | .ok _, .error _ => isFalse (fun hc => by cases hc)
  | .error _, .ok _ => isFalse (fun hc => by cases hc)
  | .error x, .error y =>
    if h : x = y then isTrue (by rw [h])
    else isFalse (fun hc => h (by cases hc; rfl))

/-- The union of value shapes vcf_format can return: a Python int, a Python
float, or a string (the missing marker "." is returned as a string). -/
inductive PyValue where
  | int (n : Int)
  | float (f : PyFloat)
  | str (s : String)
  deriving DecidableEq

/-- vcf_format from maf2vcf.py.  None becomes the missing marker "."; then the
int constructor is tried, then float; otherwise the string is split on commas:
a single piece is returned as is, several pieces are stripped and rejoined,
and a value opening with a bracket must close with one (else AssertionError)
and loses its first and last character after the strip-and-rejoin. -/
def vcf_format : Option String → Except Err PyValue
  | none => Except.ok (.str ".")
  | some val =>
    match pyIntParse val with
    | some n => Except.ok (.int n)
    | none =>
      match pyFloatParse val with
      | some f => Except.ok (.float f)
      | none =>
        let vals := splitComma val.data
        if vals.length ≤ 1 then Except.ok (.str val)
        else if val.data.head? ≠ some '[' then
          Except.ok (.str (String.mk (joinComma (vals.map stripChars))))
        else if val.data.getLast? ≠ some ']' then Except.error Err.assertionError
        else
          Except.ok (.str (String.mk (((joinComma (vals.map stripChars)).drop 1).dropLast)))

/-- A genotype relation row from the database.  The eight required columns are
explicit fields; the optional info and sample columns live in an association
list keyed by the full column name, for instance "sample:GT".  A key absent
from the list models a KeyError on access.  Values are the strings stored in
the database (the position is kept as its string rendering, which is what the
grouping key uses). -/
structure Genotype where
  contig : String
  position : String
  id : String
  reference : String
  alternates : String
  quality : String
  filters : String
  sample_name : String
  fields : List (String × String) := []
  deriving DecidableEq

/-- Dictionary access gt[key] for the optional columns: none models KeyError. -/
def getField (g : Genotype) (key : String) : Option String :=
  (g.fields.find? (fun p => p.1 = key)).map (fun p => p.2)

/-- The string grouping key from _call_key: the contig, position, reference
and alternates joined with dashes. -/
def _call_key (g : Genotype) : String :=
  g.contig ++ "-" ++ g.position ++ "-" ++ g.reference ++ "-" ++ g.alternates

/-- The index a name receives in the dictionary built by order from the
ordering list.  A dict comprehension lets a later duplicate overwrite an
earlier one, so the last occurrence wins; none models the KeyError raised
when the name is absent. -/
def ordIdxFrom : List String → String → Nat → Option Nat
  | [], _, _ => none
  | a :: t, x, i =>
    match ordIdxFrom t x (i + 1) with
    | some j => some j
    | none => if a = x then some i else none

/-- Position of a name in the ordering, per the dictionary semantics above. -/
def ordIdx (ordering : List String) (name : String) : Option Nat :=
  ordIdxFrom ordering name 0

/-- Insert a keyed element into a sorted list, before the first element whose
key is not smaller.  Elements arriving earlier therefore stay before later
elements with an equal key. -/
def insertK (p : Nat × Genotype) : List (Nat × Genotype) → List (Nat × Genotype)
  | [] => [p]
  | q :: t => if p.1 ≤ q.1 then p :: q :: t else q :: insertK p t

/-- A stable sort on the ordering index.  The Python list.sort is stable, and
a stable sort on a total key order is unique, so any stable sort gives the
same list. -/
def sortK : List (Nat × Genotype) → List (Nat × Genotype)
  | [] => []
  | p :: t => insertK p (sortK t)

/-- Sequential effectful map over a list in the Except monad: the Python for
loop that stops at the first raised exception. -/
def exMapM {ε α β : Type} (f : α → Except ε β) : List α → Except ε (List β)
  | [] => Except.ok []
  | a :: l => do
    let b ← f a
    let bs ← exMapM f l
    pure (b :: bs)

/-- The order function of maf2vcf.py, specialised to its one call site: sort
the calls by the position of their sample_name in the ordering, raising
KeyError on the first call whose name the ordering does not contain. -/
def order (gts : List Genotype) (ordering : List String) : Except Err (List Genotype) :=
  match exMapM (fun g =>
      match ordIdx ordering g.sample_name with
      | some i => Except.ok (i, g)
      | none => Except.error (Err.sampleNotInOrdering g.sample_name)) gts with
  | .error e => .error e
  | .ok pairs => .ok ((sortK pairs).map (fun p => p.2))

/-- Whether the second list opens with the first, character by character; the
Python str.startswith on the column name markers. -/
def listIsStart : List Char → List Char → Bool
  | [], _ => true
  | _ :: _, [] => false
  | a :: s, b :: t => a = b && listIsStart s t

/-- The field classifier _fields_from_columns: strip the info and sample column name markers,
keeping the input order.  Returns the info fields first, then format. -/
def _fields_from_columns (columns : List String) : List String × List String :=
  (columns.filterMap (fun c =>
     if listIsStart "info:".data c.data then some (String.mk (c.data.drop 5)) else none),
   columns.filterMap (fun c =>
     if listIsStart "sample:".data c.data then some (String.mk (c.data.drop 7)) else none))

/-- The helper _maybe_split: a non empty string splits on commas into a list, an empty
string (falsy in Python) becomes an absent value. -/
def _maybe_split (s : String) : Option (List String) :=
  if s = "" then none else some ((splitComma s.data).map String.mk)

/-- One sample at one locus: the call object keeps the sample name and the
formatted values of the FORMAT fields, in field order. -/
structure CallData where
  sample : String
  data : List PyValue
  deriving DecidableEq

/-- The constructed VCF record: locus level columns, the INFO mapping in field
order, the colon joined FORMAT string, and the ordered per sample calls. -/
structure VcfRecord where
  chrom : String
  pos : String
  id : String
  ref : String
  alt : Option (List String)
  qual : String
  filter : Option (List String)
  info : List (String × PyValue)
  format : String
  samples : List CallData
  deriving DecidableEq

/-- Build the call data for one genotype: each FORMAT field value is fetched
under the sample: key and formatted; a missing key raises, and a malformed
value raises inside vcf_format. -/
def mkCall (format_fields : List String) (gt : Genotype) : Except Err CallData := do
  let vals ← exMapM (fun d =>
      match getField gt ("sample:" ++ d) with
      | some v => vcf_format (some v)
      | none => Except.error (Err.missingField ("sample:" ++ d))) format_fields
  pure { sample := gt.sample_name, data := vals }

/-- The record builder _make_record_from_gt: the record takes every locus level column and the
INFO values from the one representative genotype it receives. -/
def _make_record_from_gt (gt : Genotype) (info_fields : List String)
    (format_fields : List String) (samples : List CallData) : Except Err VcfRecord := do
  let info ← exMapM (fun name =>
      match getField gt ("info:" ++ name) with
      | some v => do
        let fv ← vcf_format (some v)
        pure (name, fv)
      | none => Except.error (Err.missingField ("info:" ++ name))) info_fields
  pure { chrom := gt.contig, pos := gt.position, id := gt.id, ref := gt.reference,
         alt := _maybe_split gt.alternates, qual := gt.quality,
         filter := _maybe_split gt.filters, info := info,
         format := String.intercalate ":" format_fields, samples := samples }

/-- The loop body of genotypes_to_records for one contiguous group: reorder
the group by sample name, build one call per genotype, then build the record
from the first genotype of the reordered group. -/
def buildRun (ordering : List String) (info_fields : List String)
    (format_fields : List String) (run : List Genotype) : Except Err VcfRecord := do
  let sorted ← order run ordering
  let samples ← exMapM (mkCall format_fields) sorted
  match sorted with
  | [] => Except.error Err.emptyGroup
  | g0 :: _ => _make_record_from_gt g0 info_fields format_fields samples

/-- The grouping performed by itertools.groupby: maximal contiguous runs of
equal key.  Two calls land in one run exactly when every adjacent pair between
them shares the key. -/
def runsBy (k : Genotype → String) : List Genotype → List (List Genotype)
  | [] => []
  | g :: rest =>
    match runsBy k rest with
    | (h :: t) :: rs => if k g = k h then (g :: h :: t) :: rs else [g] :: (h :: t) :: rs
    | _ => [[g]]

/-- genotypes_to_records from maf2vcf.py.  The template reader appears only
through its samples attribute, passed here as sample_ordering. -/
def genotypes_to_records (genotypes : List Genotype) (sample_ordering : List String)
    (extant_columns : List String) : Except Err (List VcfRecord) :=
  let p := _fields_from_columns extant_columns
  exMapM (buildRun sample_ordering p.1 p.2) (runsBy _call_key genotypes)

/-- Modelled from the spec: the rendering of a bracketed list value as the
spec words it in section 4.1 step 5, namely strip the enclosing brackets
first, then trim each comma separated piece, then rejoin with commas.  Kept
for comparison with the vcf_format bracket branch. -/
def spec_bracket_render (s : String) : String :=
  String.mk (joinComma ((splitComma ((s.data.drop 1).dropLast)).map stripChars))

/-- True exactly when the genotype carries a present, well formed value for
every info and sample column of the batch, so that formatting it can raise
nothing. -/
def callOk (extant_columns : List String) (g : Genotype) : Bool :=
  (((_fields_from_columns extant_columns).2).all (fun d =>
    match getField g ("sample:" ++ d) with
    | some v => match vcf_format (some v) with
      | .ok _ => true
      | .error _ => false
    | none => false)) &&
  (((_fields_from_columns extant_columns).1).all (fun d =>
    match getField g ("info:" ++ d) with
    | some v => match vcf_format (some v) with
      | .ok _ => true
      | .error _ => false
    | none => false))

/-- First call of the grouping example: chr7:100 G to A for sampleA. -/
def gC1a : Genotype :=
  { contig := "chr7", position := "100", id := "", reference := "G",
    alternates := "A", quality := "", filters := "", sample_name := "sampleA" }

/-- Second call of the grouping example: same locus for sampleB. -/
def gC1b : Genotype :=
  { contig := "chr7", position := "100", id := "", reference := "G",
    alternates := "A", quality := "", filters := "", sample_name := "sampleB" }

/-- Third call of the grouping example: chr7:200 T to C for sampleA. -/
def gC1c : Genotype :=
  { contig := "chr7", position := "200", id := "", reference := "T",
    alternates := "C", quality := "", filters := "", sample_name := "sampleA" }

/-- The grouping example input of the spec. -/
def c1Calls : List Genotype := [gC1a, gC1b, gC1c]

/-- The records built from the grouping example. -/
def c1Recs : List VcfRecord :=
  [{ chrom := "chr7", pos := "100", id := "", ref := "G", alt := some ["A"], qual := "",
     filter := none, info := [], format := "", samples :=
       [{ sample := "sampleA", data := [] }, { sample := "sampleB", data := [] }] },
   { chrom := "chr7", pos := "200", id := "", ref := "T", alt := some ["C"], qual := "",
     filter := none, info := [], format := "", samples :=
       [{ sample := "sampleA", data := [] }] }]

/-- A genotype whose contig contains a dash, for the key collision. -/
def c2g1 : Genotype :=
  { contig := "a-b", position := "c", id := "", reference := "G",
    alternates := "A", quality := "", filters := "", sample_name := "s1" }

/-- A genotype with a different 4-tuple but an identical dash-joined key. -/
def c2g2 : Genotype :=
  { contig := "a", position := "b-c", id := "", reference := "G",
    alternates := "A", quality := "", filters := "", sample_name := "s2" }

/-- The NORMAL call of the ordering example. -/
def gNormal : Genotype :=
  { contig := "chr7", position := "151879673", id := "", reference := "G",
    alternates := "A", quality := "", filters := "PASS", sample_name := "NORMAL",
    fields := [("sample:GT", "0/0")] }

/-- The TUMOR call of the ordering example. -/
def gTumor : Genotype :=
  { contig := "chr7", position := "151879673", id := "", reference := "G",
    alternates := "A", quality := "", filters := "PASS", sample_name := "TUMOR",
    fields := [("sample:GT", "0/1")] }

/-- The record built from the ordering example. -/
def c5Rec : VcfRecord :=
  { chrom := "chr7", pos := "151879673", id := "", ref := "G", alt := some ["A"],
    qual := "", filter := some ["PASS"], info := [], format := "GT", samples :=
      [{ sample := "TUMOR", data := [.str "0/1"] },
       { sample := "NORMAL", data := [.str "0/0"] }] }

/-- A call whose GT value opens a bracket without closing it. -/
def gBadVal : Genotype :=
  { contig := "c1", position := "1", id := "", reference := "G",
    alternates := "A", quality := "", filters := "", sample_name := "A",
    fields := [("sample:GT", "[a,b")] }

/-- A call at another locus whose sample name is absent from the ordering. -/
def gUnknown : Genotype :=
  { contig := "c2", position := "2", id := "", reference := "G",
    alternates := "A", quality := "", filters := "", sample_name := "B",
    fields := [("sample:GT", "0/1")] }

theorem exMapM_cons {ε α β : Type} (f : α → Except ε β) (a : α) (l : List α) :
    exMapM f (a :: l) = (f a).bind (fun b => (exMapM f l).bind (fun bs => .ok (b :: bs))) := by
  simp [exMapM, Bind.bind, Except.bind, Pure.pure, Except.pure]

theorem exMapM_ok_length {ε α β : Type} (f : α → Except ε β) (l : List α) (ys : List β)
    (h : exMapM f l = .ok ys) : ys.length = l.length := by
  induction l generalizing ys with
  | nil => simp [exMapM] at h; subst h; rfl
  | cons a t ih =>
    rw [exMapM_cons] at h
    cases hfa : f a with
    | error e => rw [hfa] at h; simp [Except.bind] at h
    | ok b =>
      rw [hfa] at h
      cases ht : exMapM f t with
      | error e => rw [ht] at h; simp [Except.bind] at h
      | ok bs =>
        rw [ht] at h
        simp [Except.bind] at h
        subst h
        simp [ih bs ht]

theorem exMapM_mem_inv {ε α β : Type} (f : α → Except ε β) (l : List α) (ys : List β)
    (h : exMapM f l = .ok ys) : ∀ b ∈ ys, ∃ a ∈ l, f a = .ok b := by
  induction l generalizing ys with
  | nil => simp [exMapM] at h; subst h; simp
  | cons a t ih =>
    rw [exMapM_cons] at h
    cases hfa : f a with
    | error e => rw [hfa] at h; simp [Except.bind] at h
    | ok b =>
      rw [hfa] at h
      cases ht : exMapM f t with
      | error e => rw [ht] at h; simp [Except.bind] at h
      | ok bs =>
        rw [ht] at h
        simp [Except.bind] at h
        subst h
        intro c hc
        rcases List.mem_cons.mp hc with hc | hc
        · exact ⟨a, List.mem_cons_self a t, by rw [hfa, hc]⟩
        · rcases ih bs ht c hc with ⟨x, hx, hfx⟩
          exact ⟨x, List.mem_cons_of_mem a hx, hfx⟩

theorem exMapM_err_inv {ε α β : Type} (f : α → Except ε β) (l : List α) (e : ε)
    (h : exMapM f l = .error e) : ∃ a ∈ l, f a = .error e := by
  induction l with
  | nil => simp [exMapM] at h
  | cons a t ih =>
    rw [exMapM_cons] at h
    cases hfa : f a with
    | error e2 =>
      rw [hfa] at h
      simp [Except.bind] at h
      exact ⟨a, List.mem_cons_self a t, by rw [hfa, h]⟩
    | ok b =>
      rw [hfa] at h
      cases ht : exMapM f t with
      | error e2 =>
        rw [ht] at h
        simp [Except.bind] at h
        subst h
        rcases ih ht with ⟨x, hx, hfx⟩
        exact ⟨x, List.mem_cons_of_mem a hx, hfx⟩
      | ok bs => rw [ht] at h; simp [Except.bind] at h

theorem exMapM_ok_of_forall {ε α β : Type} (f : α → Except ε β) (l : List α)
    (h : ∀ a ∈ l, ∃ b, f a = .ok b) : ∃ ys, exMapM f l = .ok ys := by
  induction l with
  | nil => exact ⟨[], rfl⟩
  | cons a t ih =>
    rcases h a (List.mem_cons_self a t) with ⟨b, hb⟩
    rcases ih (fun x hx => h x (List.mem_cons_of_mem a hx)) with ⟨bs, hbs⟩
    exact ⟨b :: bs, by rw [exMapM_cons, hb, hbs]; rfl⟩

theorem exMapM_ok_map2 {ε α β γ : Type} (f : α → Except ε β) (l : List α) (ys : List β)
    (g : β → γ) (h2 : α → γ) (h : exMapM f l = .ok ys)
    (hp : ∀ a b, f a = .ok b → g b = h2 a) : ys.map g = l.map h2 := by
  induction l generalizing ys with
  | nil => simp [exMapM] at h; subst h; rfl
  | cons a t ih =>
    rw [exMapM_cons] at h
    cases hfa : f a with
    | error e => rw [hfa] at h; simp [Except.bind] at h
    | ok b =>
      rw [hfa] at h
      cases ht : exMapM f t with
      | error e => rw [ht] at h; simp [Except.bind] at h
      | ok bs =>
        rw [ht] at h
        simp [Except.bind] at h
        subst h
        simp [hp a b hfa, ih bs ht]

theorem runsBy_head_cons (k : Genotype → String) (a : Genotype) (l : List Genotype) :
    ∃ t rs, runsBy k (a :: l) = (a :: t) :: rs := by
  show ∃ t rs, (match runsBy k l with
    | (h :: t) :: rs => if k a = k h then (a :: h :: t) :: rs else [a] :: (h :: t) :: rs
    | _ => [[a]]) = (a :: t) :: rs
  cases hr : runsBy k l with
  | nil => exact ⟨[], [], rfl⟩
  | cons r rs =>
    cases r with
    | nil => exact ⟨[], [], rfl⟩
    | cons h t =>
      by_cases hk : k a = k h
      · exact ⟨h :: t, rs, by simp [hk]⟩
      · exact ⟨[], (h :: t) :: rs, by simp [hk]⟩

theorem runsBy_join (k : Genotype → String) (l : List Genotype) :
    (runsBy k l).flatten = l := by
  induction l with
  | nil => rfl
  | cons a t ih =>
    cases t with
    | nil => rfl
    | cons b t2 =>
      rcases runsBy_head_cons k b t2 with ⟨u, rs, hu⟩
      show (match runsBy k (b :: t2) with
        | (h :: t) :: rs => if k a = k h then (a :: h :: t) :: rs else [a] :: (h :: t) :: rs
        | _ => [[a]]).flatten = a :: b :: t2
      rw [hu]
      rw [hu] at ih
      simp only [List.flatten_cons, List.cons_append] at ih
      simp only [List.cons.injEq, true_and] at ih
      by_cases hk : k a = k b
      · simp [hk, ih]
      · simp [hk, ih]

theorem runsBy_ne_nil (k : Genotype → String) (l : List Genotype) :
    ∀ r ∈ runsBy k l, r ≠ [] := by
  induction l with
  | nil => simp [runsBy]
  | cons a t ih =>
    cases t with
    | nil => simp [runsBy]
    | cons b t2 =>
      rcases runsBy_head_cons k b t2 with ⟨u, rs, hu⟩
      show ∀ r ∈ (match runsBy k (b :: t2) with
        | (h :: t) :: rs => if k a = k h then (a :: h :: t) :: rs else [a] :: (h :: t) :: rs
        | _ => [[a]]), r ≠ []
      rw [hu]
      rw [hu] at ih
      by_cases hk : k a = k b
      · simp only [hk, if_pos rfl]
        intro r hr
        rcases List.mem_cons.mp hr with hr | hr
        · subst hr; simp
        · exact ih r (List.mem_cons_of_mem _ hr)
      · simp only [if_neg hk]
        intro r hr
        rcases List.mem_cons.mp hr with hr | hr
        · subst hr; simp
        · exact ih r hr

theorem runsBy_key_const (k : Genotype → String) (l : List Genotype) :
    ∀ r ∈ runsBy k l, ∀ a ∈ r, ∀ b ∈ r, k a = k b := by
  induction l with
  | nil => simp [runsBy]
  | cons g t ih =>
    cases t with
    | nil =>
      simp only [runsBy]
      intro r hr
      rcases List.mem_singleton.mp hr with rfl
      intro a ha b hb
      rcases List.mem_singleton.mp ha with rfl
      rcases List.mem_singleton.mp hb with rfl
      rfl
    | cons b2 t2 =>
      rcases runsBy_head_cons k b2 t2 with ⟨u, rs, hu⟩
      show ∀ r ∈ (match runsBy k (b2 :: t2) with
        | (h :: t) :: rs => if k g = k h then (g :: h :: t) :: rs else [g] :: (h :: t) :: rs
        | _ => [[g]]), ∀ a ∈ r, ∀ b ∈ r, k a = k b
      rw [hu]
      rw [hu] at ih
      have hfirst : ∀ a ∈ b2 :: u, ∀ b ∈ b2 :: u, k a = k b :=
        ih (b2 :: u) (List.mem_cons_self _ _)
      by_cases hk : k g = k b2
      · simp only [hk, if_pos rfl]
        intro r hr
        rcases List.mem_cons.mp hr with hr | hr
        · subst hr
          intro a ha b hb
          have key : ∀ x ∈ g :: b2 :: u, k x = k b2 := by
            intro x hx
            rcases List.mem_cons.mp hx with hx | hx
            · subst hx; exact hk
            · exact hfirst x hx b2 (List.mem_cons_self _ _)
          rw [key a ha, key b hb]
        · exact ih r (List.mem_cons_of_mem _ hr)
      · simp only [if_neg hk]
        intro r hr
        rcases List.mem_cons.mp hr with hr | hr
        · subst hr
          intro a ha b hb
          rcases List.mem_singleton.mp ha with rfl
          rcases List.mem_singleton.mp hb with rfl
          rfl
        · exact ih r hr

theorem runsBy_chain (k : Genotype → String) (l : List Genotype) :
    List.Chain' (fun r1 r2 => ∀ a ∈ r1, ∀ b ∈ r2, k a ≠ k b) (runsBy k l) := by
  induction l with
  | nil => simp [runsBy]
  | cons g t ih =>
    cases t with
    | nil => simp [runsBy]
    | cons b2 t2 =>
      rcases runsBy_head_cons k b2 t2 with ⟨u, rs, hu⟩
      show List.Chain' _ (match runsBy k (b2 :: t2) with
        | (h :: t) :: rs => if k g = k h then (g :: h :: t) :: rs else [g] :: (h :: t) :: rs
        | _ => [[g]])
      rw [hu]
      rw [hu] at ih
      have hfirst : ∀ a ∈ b2 :: u, k a = k b2 :=
        fun a ha => runsBy_key_const k (b2 :: t2) (b2 :: u) (by rw [hu]; exact List.mem_cons_self _ _)
          a ha b2 (List.mem_cons_self _ _)
      rcases List.chain'_cons'.mp ih with ⟨hrel, hchain⟩
      by_cases hk : k g = k b2
      · simp only [hk, if_pos rfl]
        apply List.chain'_cons'.mpr
        refine ⟨?_, hchain⟩
        intro r2 hr2 a ha b hb
        rcases List.mem_cons.mp ha with ha | ha
        · subst ha
          rw [hk]
          exact hrel r2 hr2 b2 (List.mem_cons_self _ _) b hb
        · exact hrel r2 hr2 a ha b hb
      · simp only [if_neg hk]
        apply List.chain'_cons'.mpr
        refine ⟨?_, ih⟩
        intro r2 hr2 a ha b hb
        have hr2' : r2 = b2 :: u := by
          simp only [List.head?_cons, Option.mem_def, Option.some.injEq] at hr2
          exact hr2.symm
        rcases List.mem_singleton.mp ha with rfl
        rw [hr2'] at hb
        rw [hfirst b hb]
        exact hk

theorem exMapM_ok_forall {ε α β : Type} (f : α → Except ε β) (l : List α) (ys : List β)
    (h : exMapM f l = .ok ys) : ∀ a ∈ l, ∃ b, f a = .ok b := by
  induction l generalizing ys with
  | nil => simp
  | cons a t ih =>
    rw [exMapM_cons] at h
    cases hfa : f a with
    | error e => rw [hfa] at h; simp [Except.bind] at h
    | ok b =>
      rw [hfa] at h
      cases ht : exMapM f t with
      | error e => rw [ht] at h; simp [Except.bind] at h
      | ok bs =>
        intro x hx
        rcases List.mem_cons.mp hx with hx | hx
        · exact ⟨b, by rw [hx, hfa]⟩
        · exact ih bs ht x hx

theorem length_insertK (p : Nat × Genotype) (l : List (Nat × Genotype)) :
    (insertK p l).length = l.length + 1 := by
  induction l with
  | nil => rfl
  | cons q t ih =>
    by_cases h : p.1 ≤ q.1
    · simp [insertK, h]
    · simp [insertK, h, ih]

theorem length_sortK (l : List (Nat × Genotype)) : (sortK l).length = l.length := by
  induction l with
  | nil => rfl
  | cons p t ih => simp [sortK, length_insertK, ih]

theorem mem_insertK (p q : Nat × Genotype) (l : List (Nat × Genotype)) :
    q ∈ insertK p l ↔ q = p ∨ q ∈ l := by
  induction l with
  | nil => simp [insertK]
  | cons r t ih =>
    by_cases h : p.1 ≤ r.1
    · simp only [insertK, if_pos h, List.mem_cons]
    · simp only [insertK, if_neg h, List.mem_cons, ih]
      tauto

theorem mem_sortK (q : Nat × Genotype) (l : List (Nat × Genotype)) :
    q ∈ sortK l ↔ q ∈ l := by
  induction l with
  | nil => simp [sortK]
  | cons p t ih => simp [sortK, mem_insertK, ih]

theorem pairwise_insertK (p : Nat × Genotype) (l : List (Nat × Genotype))
    (h : l.Pairwise (fun a b => a.1 ≤ b.1)) :
    (insertK p l).Pairwise (fun a b => a.1 ≤ b.1) := by
  induction l with
  | nil => simp [insertK]
  | cons q t ih =>
    rcases List.pairwise_cons.mp h with ⟨hq, ht⟩
    by_cases hle : p.1 ≤ q.1
    · simp only [insertK, if_pos hle]
      apply List.pairwise_cons.mpr
      refine ⟨?_, h⟩
      intro b hb
      rcases List.mem_cons.mp hb with hb | hb
      · rw [hb]; exact hle
      · exact le_trans hle (hq b hb)
    · simp only [insertK, if_neg hle]
      apply List.pairwise_cons.mpr
      refine ⟨?_, ih ht⟩
      intro b hb
      rcases (mem_insertK p b t).mp hb with hb | hb
      · rw [hb]; omega
      · exact hq b hb

theorem sortK_pairwise (l : List (Nat × Genotype)) :
    (sortK l).Pairwise (fun a b => a.1 ≤ b.1) := by
  induction l with
  | nil => simp [sortK]
  | cons p t ih => exact pairwise_insertK p (sortK t) ih

theorem filter_insertK_neg (p : Nat × Genotype) (l : List (Nat × Genotype)) (key : Nat)
    (h : p.1 ≠ key) :
    (insertK p l).filter (fun q => q.1 == key) = l.filter (fun q => q.1 == key) := by
  induction l with
  | nil => simp [insertK, List.filter_cons, h]
  | cons q t ih =>
    by_cases hle : p.1 ≤ q.1
    · simp only [insertK, if_pos hle]
      simp [List.filter_cons, h]
    · simp only [insertK, if_neg hle]
      rw [List.filter_cons, List.filter_cons, ih]

theorem filter_insertK_pos (p : Nat × Genotype) (l : List (Nat × Genotype)) (key : Nat)
    (h : p.1 = key) :
    (insertK p l).filter (fun q => q.1 == key) = p :: l.filter (fun q => q.1 == key) := by
  induction l with
  | nil => simp [insertK, List.filter_cons, h]
  | cons q t ih =>
    by_cases hle : p.1 ≤ q.1
    · simp only [insertK, if_pos hle]
      simp [List.filter_cons, h]
    · have hqk : q.1 ≠ key := by omega
      simp only [insertK, if_neg hle]
      simp [List.filter_cons, hqk, ih]

theorem sortK_filter (l : List (Nat × Genotype)) (key : Nat) :
    (sortK l).filter (fun q => q.1 == key) = l.filter (fun q => q.1 == key) := by
  induction l with
  | nil => rfl
  | cons p t ih =>
    show (insertK p (sortK t)).filter _ = _
    by_cases h : p.1 = key
    · rw [filter_insertK_pos p (sortK t) key h, ih]
      simp [List.filter_cons, h]
    · rw [filter_insertK_neg p (sortK t) key h, ih]
      simp [List.filter_cons, h]

theorem ordIdxFrom_none_iff (l : List String) (x : String) (i : Nat) :
    ordIdxFrom l x i = none ↔ x ∉ l := by
  induction l generalizing i with
  | nil => simp [ordIdxFrom]
  | cons a t ih =>
    show (match ordIdxFrom t x (i + 1) with
      | some j => some j
      | none => if a = x then some i else none) = none ↔ _
    cases ht : ordIdxFrom t x (i + 1) with
    | some j =>
      have hxt : x ∈ t := by
        by_contra hx
        rw [(ih (i + 1)).mpr hx] at ht
        simp at ht
      simp [hxt, List.mem_cons]
    | none =>
      by_cases ha : a = x
      · simp [ha]
      · simp only [if_neg ha, List.mem_cons]
        constructor
        · intro _
          push_neg
          exact ⟨fun hc => ha hc.symm, (ih (i + 1)).mp ht⟩
        · intro _
          trivial

theorem ordIdx_none_iff (ordering : List String) (x : String) :
    ordIdx ordering x = none ↔ x ∉ ordering :=
  ordIdxFrom_none_iff ordering x 0

theorem ordIdxFrom_some (l : List String) (x : String) (i j : Nat)
    (h : ordIdxFrom l x i = some j) : i ≤ j ∧ l.get? (j - i) = some x := by
  induction l generalizing i with
  | nil => simp [ordIdxFrom] at h
  | cons a t ih =>
    have h2 : (match ordIdxFrom t x (i + 1) with
      | some j => some j
      | none => if a = x then some i else none) = some j := h
    cases ht : ordIdxFrom t x (i + 1) with
    | some j2 =>
      rw [ht] at h2
      simp only [Option.some.injEq] at h2
      rw [h2] at ht
      rcases ih (i + 1) ht with ⟨hle, hget⟩
      constructor
      · omega
      · have h3 : j - i = (j - (i + 1)) + 1 := by omega
        rw [h3]
        simpa using hget
    | none =>
      rw [ht] at h2
      by_cases ha : a = x
      · rw [if_pos ha] at h2
        simp only [Option.some.injEq] at h2
        subst h2
        simp [ha]
      · rw [if_neg ha] at h2
        simp at h2

theorem ordIdx_inj (ordering : List String) (n1 n2 : String) (j : Nat)
    (h1 : ordIdx ordering n1 = some j) (h2 : ordIdx ordering n2 = some j) : n1 = n2 := by
  rcases ordIdxFrom_some ordering n1 0 j h1 with ⟨_, hg1⟩
  rcases ordIdxFrom_some ordering n2 0 j h2 with ⟨_, hg2⟩
  simp only [Nat.sub_zero] at hg1 hg2
  rw [hg1] at hg2
  exact (Option.some.injEq _ _).mp hg2

/-- The per element lookup inside order. -/
def ordLookup (ordering : List String) (g : Genotype) : Except Err (Nat × Genotype) :=
  match ordIdx ordering g.sample_name with
  | some i => Except.ok (i, g)
  | none => Except.error (Err.sampleNotInOrdering g.sample_name)

theorem order_eq (gts : List Genotype) (ordering : List String) :
    order gts ordering = match exMapM (ordLookup ordering) gts with
      | .error e => .error e
      | .ok pairs => .ok ((sortK pairs).map (fun p => p.2)) := rfl

theorem ordLookup_ok (ordering : List String) (g : Genotype) (b : Nat × Genotype)
    (h : ordLookup ordering g = Except.ok b) :
    b.2 = g ∧ ordIdx ordering g.sample_name = some b.1 := by
  unfold ordLookup at h
  cases hi : ordIdx ordering g.sample_name with
  | some i =>
    rw [hi] at h
    simp only [Except.ok.injEq] at h
    rw [← h]
    exact ⟨rfl, rfl⟩
  | none => rw [hi] at h; cases h

theorem ordLookup_err (ordering : List String) (g : Genotype) (e : Err)
    (h : ordLookup ordering g = Except.error e) :
    e = Err.sampleNotInOrdering g.sample_name ∧ g.sample_name ∉ ordering := by
  unfold ordLookup at h
  cases hi : ordIdx ordering g.sample_name with
  | some i => rw [hi] at h; cases h
  | none =>
    rw [hi] at h
    simp only [Except.error.injEq] at h
    exact ⟨h.symm, (ordIdx_none_iff ordering g.sample_name).mp hi⟩

theorem order_ok_inv (gts : List Genotype) (ordering : List String) (sorted : List Genotype)
    (h : order gts ordering = .ok sorted) :
    ∃ pairs, exMapM (ordLookup ordering) gts = .ok pairs ∧
      sorted = (sortK pairs).map (fun p => p.2) ∧
      pairs.map (fun p => p.2) = gts ∧
      (∀ p ∈ pairs, ordIdx ordering p.2.sample_name = some p.1) := by
  rw [order_eq] at h
  cases hm : exMapM (ordLookup ordering) gts with
  | error e => rw [hm] at h; cases h
  | ok pairs =>
    rw [hm] at h
    simp only [Except.ok.injEq] at h
    refine ⟨pairs, rfl, h.symm, ?_, ?_⟩
    · have := exMapM_ok_map2 (ordLookup ordering) gts pairs (fun p => p.2) id hm
        (fun a b hb => (ordLookup_ok ordering a b hb).1)
      simpa using this
    · intro p hp
      rcases exMapM_mem_inv (ordLookup ordering) gts pairs hm p hp with ⟨a, _, ha⟩
      rcases ordLookup_ok ordering a p ha with ⟨h2, h3⟩
      rw [h2]
      exact h3

theorem order_err_inv (gts : List Genotype) (ordering : List String) (e : Err)
    (h : order gts ordering = .error e) :
    ∃ g ∈ gts, e = Err.sampleNotInOrdering g.sample_name ∧ g.sample_name ∉ ordering := by
  rw [order_eq] at h
  cases hm : exMapM (ordLookup ordering) gts with
  | error e2 =>
    rw [hm] at h
    simp only [Except.error.injEq] at h
    rcases exMapM_err_inv (ordLookup ordering) gts e2 hm with ⟨g, hg, hge⟩
    refine ⟨g, hg, ?_⟩
    rw [← h]
    exact ordLookup_err ordering g e2 hge
  | ok pairs => rw [hm] at h; cases h

theorem order_ok_of_forall (gts : List Genotype) (ordering : List String)
    (h : ∀ g ∈ gts, g.sample_name ∈ ordering) :
    ∃ sorted, order gts ordering = .ok sorted := by
  have hok : ∀ g ∈ gts, ∃ b, ordLookup ordering g = .ok b := by
    intro g hg
    unfold ordLookup
    cases hi : ordIdx ordering g.sample_name with
    | some i => exact ⟨(i, g), rfl⟩
    | none => exact absurd (h g hg) ((ordIdx_none_iff ordering g.sample_name).mp hi)
  rcases exMapM_ok_of_forall (ordLookup ordering) gts hok with ⟨pairs, hp⟩
  refine ⟨(sortK pairs).map (fun p => p.2), ?_⟩
  rw [order_eq, hp]

theorem order_mem (gts : List Genotype) (ordering : List String) (sorted : List Genotype)
    (h : order gts ordering = .ok sorted) : ∀ g ∈ sorted, g ∈ gts := by
  rcases order_ok_inv gts ordering sorted h with ⟨pairs, hm, hs, hmap, _⟩
  intro g hg
  rw [hs] at hg
  rcases List.mem_map.mp hg with ⟨p, hp, hpg⟩
  rw [mem_sortK] at hp
  rw [← hmap]
  exact List.mem_map.mpr ⟨p, hp, hpg⟩

theorem order_ok_length (gts : List Genotype) (ordering : List String) (sorted : List Genotype)
    (h : order gts ordering = .ok sorted) : sorted.length = gts.length := by
  rcases order_ok_inv gts ordering sorted h with ⟨pairs, hm, hs, _, _⟩
  rw [hs]
  rw [List.length_map, length_sortK]
  exact exMapM_ok_length (ordLookup ordering) gts pairs hm

theorem order_sorted (gts : List Genotype) (ordering : List String) (sorted : List Genotype)
    (h : order gts ordering = .ok sorted) :
    sorted.Pairwise (fun a b => ∀ i j, ordIdx ordering a.sample_name = some i →
      ordIdx ordering b.sample_name = some j → i ≤ j) := by
  rcases order_ok_inv gts ordering sorted h with ⟨pairs, hm, hs, _, hinv⟩
  rw [hs]
  apply List.pairwise_map.mpr
  have hsorted := sortK_pairwise pairs
  apply hsorted.imp_of_mem
  intro p q hp hq hle i j hi hj
  have hp2 := hinv p ((mem_sortK p pairs).mp hp)
  have hq2 := hinv q ((mem_sortK q pairs).mp hq)
  rw [hp2] at hi
  rw [hq2] at hj
  have hi2 : p.1 = i := (Option.some.injEq _ _).mp hi
  have hj2 : q.1 = j := (Option.some.injEq _ _).mp hj
  omega

theorem order_filter (gts : List Genotype) (ordering : List String) (sorted : List Genotype)
    (h : order gts ordering = .ok sorted) (name : String) :
    sorted.filter (fun g => g.sample_name == name)
      = gts.filter (fun g => g.sample_name == name) := by
  rcases order_ok_inv gts ordering sorted h with ⟨pairs, hm, hs, hmap, hinv⟩
  rw [hs, ← hmap]
  cases hkey : ordIdx ordering name with
  | none =>
    have hnone : ∀ (l : List (Nat × Genotype)), (∀ p ∈ l, ordIdx ordering p.2.sample_name = some p.1) →
        (l.map (fun p => p.2)).filter (fun g => g.sample_name == name) = [] := by
      intro l hl
      apply List.filter_eq_nil_iff.mpr
      intro g hg
      rcases List.mem_map.mp hg with ⟨p, hp, hpg⟩
      intro hc
      simp only [beq_iff_eq] at hc
      have := hl p hp
      rw [hpg, hc] at this
      rw [this] at hkey
      cases hkey
    rw [hnone (sortK pairs) (fun p hp => hinv p ((mem_sortK p pairs).mp hp)),
        hnone pairs hinv]
  | some key =>
    have hcongr : ∀ (l : List (Nat × Genotype)), (∀ p ∈ l, ordIdx ordering p.2.sample_name = some p.1) →
        l.filter (fun p => p.2.sample_name == name) = l.filter (fun p => p.1 == key) := by
      intro l hl
      apply List.filter_congr
      intro p hp
      have hpi := hl p hp
      by_cases hn : p.2.sample_name = name
      · rw [hn] at hpi
        rw [hpi] at hkey
        have : key = p.1 := ((Option.some.injEq _ _).mp hkey).symm
        simp [hn, this]
      · have hne : ¬(p.1 = key) := by
          intro hc
          rw [hc] at hpi
          exact hn (ordIdx_inj ordering p.2.sample_name name key hpi hkey)
        simp [hn, hne]
    rw [List.filter_map, List.filter_map]
    have e1 : (fun g => g.sample_name == name) ∘ (fun (p : Nat × Genotype) => p.2)
        = fun (p : Nat × Genotype) => p.2.sample_name == name := rfl
    rw [e1]
    rw [hcongr (sortK pairs) (fun p hp => hinv p ((mem_sortK p pairs).mp hp)), hcongr pairs hinv]
    rw [sortK_filter]

theorem order_ok_names (gts : List Genotype) (ordering : List String) (sorted : List Genotype)
    (h : order gts ordering = .ok sorted) : ∀ g ∈ gts, g.sample_name ∈ ordering := by
  rw [order_eq] at h
  cases hm : exMapM (ordLookup ordering) gts with
  | error e => rw [hm] at h; cases h
  | ok pairs =>
    intro g hg
    rcases exMapM_ok_forall (ordLookup ordering) gts pairs hm g hg with ⟨b, hb⟩
    rcases ordLookup_ok ordering g b hb with ⟨_, hi⟩
    by_contra hc
    rw [(ordIdx_none_iff ordering g.sample_name).mpr hc] at hi
    cases hi

theorem order_err_of_bad (gts : List Genotype) (ordering : List String)
    (hbad : ∃ g ∈ gts, g.sample_name ∉ ordering) :
    ∃ n, order gts ordering = .error (Err.sampleNotInOrdering n) ∧ n ∉ ordering := by
  cases ho : order gts ordering with
  | ok sorted =>
    rcases hbad with ⟨g, hg, hn⟩
    exact absurd (order_ok_names gts ordering sorted ho g hg) hn
  | error e =>
    rcases order_err_inv gts ordering e ho with ⟨g, _, he, hn⟩
    exact ⟨g.sample_name, by rw [← he], hn⟩

theorem vcf_format_some_eq (s : String) :
    vcf_format (some s) = match pyIntParse s with
      | some n => Except.ok (.int n)
      | none => match pyFloatParse s with
        | some f => Except.ok (.float f)
        | none =>
          if (splitComma s.data).length ≤ 1 then Except.ok (.str s)
          else if s.data.head? ≠ some '[' then
            Except.ok (.str (String.mk (joinComma ((splitComma s.data).map stripChars))))
          else if s.data.getLast? ≠ some ']' then Except.error Err.assertionError
          else Except.ok (.str (String.mk
            (((joinComma ((splitComma s.data).map stripChars)).drop 1).dropLast))) := rfl

theorem vcf_format_err (x : Option String) (e : Err) (h : vcf_format x = .error e) :
    e = Err.assertionError := by
  cases x with
  | none => cases h
  | some s =>
    rw [vcf_format_some_eq] at h
    cases hI : pyIntParse s with
    | some n => rw [hI] at h; cases h
    | none =>
      rw [hI] at h
      cases hF : pyFloatParse s with
      | some f => rw [hF] at h; cases h
      | none =>
        rw [hF] at h
        by_cases h1 : (splitComma s.data).length ≤ 1
        · rw [if_pos h1] at h; cases h
        · rw [if_neg h1] at h
          by_cases h2 : s.data.head? ≠ some '['
          · rw [if_pos h2] at h; cases h
          · rw [if_neg h2] at h
            by_cases h3 : s.data.getLast? ≠ some ']'
            · rw [if_pos h3] at h
              exact ((Except.error.injEq _ _).mp h).symm
            · rw [if_neg h3] at h; cases h

/-- The per field value fetch for one FORMAT field of one genotype. -/
def sampleFieldFetch (gt : Genotype) (d : String) : Except Err PyValue :=
  match getField gt ("sample:" ++ d) with
  | some v => vcf_format (some v)
  | none => Except.error (Err.missingField ("sample:" ++ d))

/-- The per field fetch and format for one INFO field of one genotype. -/
def infoFieldFetch (gt : Genotype) (name : String) : Except Err (String × PyValue) :=
  match getField gt ("info:" ++ name) with
  | some v => do
    let fv ← vcf_format (some v)
    pure (name, fv)
  | none => Except.error (Err.missingField ("info:" ++ name))

theorem mkCall_eq (f : List String) (gt : Genotype) :
    mkCall f gt = (exMapM (sampleFieldFetch gt) f).bind
      (fun vals => Except.ok { sample := gt.sample_name, data := vals }) := rfl

theorem _make_record_eq (gt : Genotype) (i f : List String) (samples : List CallData) :
    _make_record_from_gt gt i f samples = (exMapM (infoFieldFetch gt) i).bind
      (fun info => Except.ok { chrom := gt.contig, pos := gt.position, id := gt.id,
                               ref := gt.reference, alt := _maybe_split gt.alternates,
                               qual := gt.quality, filter := _maybe_split gt.filters,
                               info := info, format := String.intercalate ":" f,
                               samples := samples }) := rfl

theorem buildRun_eq (o i f : List String) (run : List Genotype) :
    buildRun o i f run = (order run o).bind (fun sorted =>
      (exMapM (mkCall f) sorted).bind (fun samples =>
        match sorted with
        | [] => Except.error Err.emptyGroup
        | g0 :: _ => _make_record_from_gt g0 i f samples)) := rfl

theorem g2r_eq (gts : List Genotype) (so cols : List String) :
    genotypes_to_records gts so cols =
      exMapM (buildRun so (_fields_from_columns cols).1 (_fields_from_columns cols).2)
        (runsBy _call_key gts) := rfl

theorem sampleFieldFetch_err (gt : Genotype) (d : String) (e : Err)
    (h : sampleFieldFetch gt d = .error e) :
    (∃ key, e = Err.missingField key) ∨ e = Err.assertionError := by
  unfold sampleFieldFetch at h
  cases hg : getField gt ("sample:" ++ d) with
  | some v =>
    rw [hg] at h
    exact Or.inr (vcf_format_err (some v) e h)
  | none =>
    rw [hg] at h
    exact Or.inl ⟨"sample:" ++ d, ((Except.error.injEq _ _).mp h).symm⟩

theorem infoFieldFetch_err (gt : Genotype) (name : String) (e : Err)
    (h : infoFieldFetch gt name = .error e) :
    (∃ key, e = Err.missingField key) ∨ e = Err.assertionError := by
  unfold infoFieldFetch at h
  cases hg : getField gt ("info:" ++ name) with
  | some v =>
    rw [hg] at h
    have h2 : (vcf_format (some v)).bind (fun fv => Except.ok (name, fv)) = Except.error e := h
    cases hv : vcf_format (some v) with
    | ok fv => rw [hv] at h2; simp [Except.bind] at h2
    | error e2 =>
      rw [hv] at h2
      simp only [Except.bind] at h2
      rw [← (Except.error.injEq _ _).mp h2]
      exact Or.inr (vcf_format_err (some v) e2 hv)
  | none =>
    rw [hg] at h
    exact Or.inl ⟨"info:" ++ name, ((Except.error.injEq _ _).mp h).symm⟩

theorem infoFieldFetch_ok (gt : Genotype) (name : String) (p : String × PyValue)
    (h : infoFieldFetch gt name = .ok p) :
    p.1 = name ∧ ∃ raw, getField gt ("info:" ++ name) = some raw ∧
      vcf_format (some raw) = .ok p.2 := by
  unfold infoFieldFetch at h
  cases hg : getField gt ("info:" ++ name) with
  | some v =>
    rw [hg] at h
    have h2 : (vcf_format (some v)).bind (fun fv => Except.ok (name, fv)) = Except.ok p := h
    cases hv : vcf_format (some v) with
    | error e2 => rw [hv] at h2; simp [Except.bind] at h2
    | ok fv =>
      rw [hv] at h2
      simp only [Except.bind, Except.ok.injEq] at h2
      rw [← h2]
      exact ⟨rfl, v, rfl, hv⟩
  | none => rw [hg] at h; cases h

theorem mkCall_err (f : List String) (gt : Genotype) (e : Err)
    (h : mkCall f gt = .error e) :
    (∃ key, e = Err.missingField key) ∨ e = Err.assertionError := by
  rw [mkCall_eq] at h
  cases hm : exMapM (sampleFieldFetch gt) f with
  | ok vals => rw [hm] at h; simp [Except.bind] at h
  | error e2 =>
    rw [hm] at h
    simp only [Except.bind] at h
    rw [← (Except.error.injEq _ _).mp h]
    rcases exMapM_err_inv (sampleFieldFetch gt) f e2 hm with ⟨d, _, hd⟩
    exact sampleFieldFetch_err gt d e2 hd

theorem mkCall_ok_sample (f : List String) (gt : Genotype) (c : CallData)
    (h : mkCall f gt = .ok c) : c.sample = gt.sample_name := by
  rw [mkCall_eq] at h
  cases hm : exMapM (sampleFieldFetch gt) f with
  | error e => rw [hm] at h; simp [Except.bind] at h
  | ok vals =>
    rw [hm] at h
    simp only [Except.bind, Except.ok.injEq] at h
    rw [← h]

theorem _make_record_err (gt : Genotype) (i f : List String) (samples : List CallData) (e : Err)
    (h : _make_record_from_gt gt i f samples = .error e) :
    (∃ key, e = Err.missingField key) ∨ e = Err.assertionError := by
  rw [_make_record_eq] at h
  cases hm : exMapM (infoFieldFetch gt) i with
  | ok info => rw [hm] at h; simp [Except.bind] at h
  | error e2 =>
    rw [hm] at h
    simp only [Except.bind] at h
    rw [← (Except.error.injEq _ _).mp h]
    rcases exMapM_err_inv (infoFieldFetch gt) i e2 hm with ⟨d, _, hd⟩
    exact infoFieldFetch_err gt d e2 hd

theorem buildRun_ok_inv (o i f : List String) (run : List Genotype) (rec : VcfRecord)
    (h : buildRun o i f run = .ok rec) :
    ∃ sorted samples g0 rest, order run o = .ok sorted ∧
      exMapM (mkCall f) sorted = .ok samples ∧ sorted = g0 :: rest ∧
      _make_record_from_gt g0 i f samples = .ok rec := by
  rw [buildRun_eq] at h
  cases ho : order run o with
  | error e => rw [ho] at h; simp [Except.bind] at h
  | ok sorted =>
    rw [ho] at h
    simp only [Except.bind] at h
    cases hm : exMapM (mkCall f) sorted with
    | error e => rw [hm] at h; simp [Except.bind] at h
    | ok samples =>
      rw [hm] at h
      simp only [Except.bind] at h
      cases hsort : sorted with
      | nil => rw [hsort] at h; cases h
      | cons g0 rest =>
        rw [hsort] at h
        rw [hsort] at hm
        exact ⟨g0 :: rest, samples, g0, rest, rfl, hm, rfl, h⟩

theorem buildRun_rec_inv (o i f : List String) (run : List Genotype) (rec : VcfRecord)
    (h : buildRun o i f run = .ok rec) :
    ∃ sorted g0 rest, order run o = .ok sorted ∧ sorted = g0 :: rest ∧
      rec.chrom = g0.contig ∧ rec.pos = g0.position ∧ rec.id = g0.id ∧
      rec.ref = g0.reference ∧ rec.qual = g0.quality ∧
      rec.alt = _maybe_split g0.alternates ∧ rec.filter = _maybe_split g0.filters ∧
      rec.format = String.intercalate ":" f ∧
      rec.info.map (fun p => p.1) = i ∧
      (∀ p ∈ rec.info, ∃ raw, getField g0 ("info:" ++ p.1) = some raw ∧
        vcf_format (some raw) = .ok p.2) ∧
      rec.samples.map (fun c => c.sample) = sorted.map (fun g => g.sample_name) ∧
      rec.samples.length = run.length := by
  rcases buildRun_ok_inv o i f run rec h with ⟨sorted, samples, g0, rest, ho, hm, hsort, hr⟩
  rw [_make_record_eq] at hr
  cases hinfo : exMapM (infoFieldFetch g0) i with
  | error e => rw [hinfo] at hr; simp [Except.bind] at hr
  | ok info =>
    rw [hinfo] at hr
    simp only [Except.bind, Except.ok.injEq] at hr
    refine ⟨sorted, g0, rest, ho, hsort, ?_⟩
    rw [← hr]
    refine ⟨rfl, rfl, rfl, rfl, rfl, rfl, rfl, rfl, ?_, ?_, ?_, ?_⟩
    · have := exMapM_ok_map2 (infoFieldFetch g0) i info (fun p => p.1) id hinfo
        (fun a b hb => (infoFieldFetch_ok g0 a b hb).1)
      simpa using this
    · intro p hp
      rcases exMapM_mem_inv (infoFieldFetch g0) i info hinfo p hp with ⟨name, _, hname⟩
      rcases infoFieldFetch_ok g0 name p hname with ⟨h1, raw, h2, h3⟩
      exact ⟨raw, by rw [h1]; exact h2, h3⟩
    · exact exMapM_ok_map2 (mkCall f) sorted samples (fun c => c.sample)
        (fun g => g.sample_name) hm (fun a b hb => mkCall_ok_sample f a b hb)
    · rw [exMapM_ok_length (mkCall f) sorted samples hm]
      exact order_ok_length run o sorted ho

theorem buildRun_samples_length (o i f : List String) (run : List Genotype) (rec : VcfRecord)
    (h : buildRun o i f run = .ok rec) : rec.samples.length = run.length := by
  rcases buildRun_rec_inv o i f run rec h with
    ⟨_, _, _, _, _, _, _, _, _, _, _, _, _, _, _, _, hlen⟩
  exact hlen

theorem buildRun_err_sampleNot (o i f : List String) (run : List Genotype) (n : String)
    (h : buildRun o i f run = .error (.sampleNotInOrdering n)) :
    order run o = .error (.sampleNotInOrdering n) := by
  rw [buildRun_eq] at h
  cases ho : order run o with
  | error e =>
    rw [ho] at h
    simp only [Except.bind, Except.error.injEq] at h
    rw [h]
  | ok sorted =>
    rw [ho] at h
    simp only [Except.bind] at h
    cases hm : exMapM (mkCall f) sorted with
    | error e =>
      rw [hm] at h
      simp only [Except.bind, Except.error.injEq] at h
      rcases exMapM_err_inv (mkCall f) sorted e hm with ⟨g, _, hg⟩
      rw [h] at hg
      rcases mkCall_err f g _ hg with ⟨key, hk⟩ | hk
      · cases hk
      · cases hk
    | ok samples =>
      rw [hm] at h
      simp only [Except.bind] at h
      cases hsort : sorted with
      | nil => rw [hsort] at h; cases ((Except.error.injEq _ _).mp h)
      | cons g0 rest =>
        rw [hsort] at h
        rcases _make_record_err g0 i f samples _ h with ⟨key, hk⟩ | hk
        · cases hk
        · cases hk

theorem callOk_sample_fetch (cols : List String) (g : Genotype) (hg : callOk cols g = true) :
    ∀ d ∈ (_fields_from_columns cols).2, ∃ b, sampleFieldFetch g d = .ok b := by
  unfold callOk at hg
  rw [Bool.and_eq_true] at hg
  have h1 := List.all_eq_true.mp hg.1
  intro d hd
  have h2 := h1 d hd
  unfold sampleFieldFetch
  cases hgf : getField g ("sample:" ++ d) with
  | none => rw [hgf] at h2; cases h2
  | some v =>
    rw [hgf] at h2
    have h3 : (match vcf_format (some v) with
      | .ok _ => true
      | .error _ => false) = true := h2
    cases hv : vcf_format (some v) with
    | error e => rw [hv] at h3; cases h3
    | ok b =>
      refine ⟨b, ?_⟩
      show vcf_format (some v) = Except.ok b
      rw [hv]

theorem callOk_info_fetch (cols : List String) (g : Genotype) (hg : callOk cols g = true) :
    ∀ d ∈ (_fields_from_columns cols).1, ∃ b, infoFieldFetch g d = .ok b := by
  unfold callOk at hg
  rw [Bool.and_eq_true] at hg
  have h1 := List.all_eq_true.mp hg.2
  intro d hd
  have h2 := h1 d hd
  unfold infoFieldFetch
  cases hgf : getField g ("info:" ++ d) with
  | none => rw [hgf] at h2; cases h2
  | some v =>
    rw [hgf] at h2
    have h3 : (match vcf_format (some v) with
      | .ok _ => true
      | .error _ => false) = true := h2
    cases hv : vcf_format (some v) with
    | error e => rw [hv] at h3; cases h3
    | ok b =>
      refine ⟨(d, b), ?_⟩
      show (vcf_format (some v)).bind (fun fv => Except.ok (d, fv)) = Except.ok (d, b)
      rw [hv]
      rfl

theorem mkCall_ok_of_callOk (cols : List String) (g : Genotype) (hg : callOk cols g = true) :
    ∃ c, mkCall (_fields_from_columns cols).2 g = .ok c := by
  rcases exMapM_ok_of_forall (sampleFieldFetch g) (_fields_from_columns cols).2
    (callOk_sample_fetch cols g hg) with ⟨vals, hv⟩
  refine ⟨{ sample := g.sample_name, data := vals }, ?_⟩
  rw [mkCall_eq, hv]
  rfl

theorem buildRun_ok_of (so cols : List String) (run : List Genotype)
    (hne : run ≠ [])
    (hwf : ∀ g ∈ run, callOk cols g = true)
    (hnames : ∀ g ∈ run, g.sample_name ∈ so) :
    ∃ rec, buildRun so (_fields_from_columns cols).1 (_fields_from_columns cols).2 run
      = .ok rec := by
  rcases order_ok_of_forall run so hnames with ⟨sorted, ho⟩
  have hmem : ∀ g ∈ sorted, g ∈ run := order_mem run so sorted ho
  rcases exMapM_ok_of_forall (mkCall (_fields_from_columns cols).2) sorted
    (fun g hgs => mkCall_ok_of_callOk cols g (hwf g (hmem g hgs))) with ⟨samples, hs⟩
  have hlen : sorted.length = run.length := order_ok_length run so sorted ho
  cases hsort : sorted with
  | nil =>
    rw [hsort] at hlen
    exact absurd (List.length_eq_zero.mp hlen.symm) hne
  | cons g0 rest =>
    have hg0 : g0 ∈ run := hmem g0 (by rw [hsort]; exact List.mem_cons_self _ _)
    rcases exMapM_ok_of_forall (infoFieldFetch g0) (_fields_from_columns cols).1
      (callOk_info_fetch cols g0 (hwf g0 hg0)) with ⟨info, hi⟩
    rw [hsort] at hs ho
    refine ⟨{ chrom := g0.contig, pos := g0.position, id := g0.id, ref := g0.reference,
              alt := _maybe_split g0.alternates, qual := g0.quality,
              filter := _maybe_split g0.filters, info := info,
              format := String.intercalate ":" (_fields_from_columns cols).2,
              samples := samples }, ?_⟩
    rw [buildRun_eq, ho]
    simp only [Except.bind]
    rw [hs]
    simp only [Except.bind]
    rw [_make_record_eq, hi]
    rfl

theorem g2r_lengths (gts : List Genotype) (so cols : List String) (recs : List VcfRecord)
    (h : genotypes_to_records gts so cols = .ok recs) :
    recs.map (fun r => r.samples.length) = (runsBy _call_key gts).map List.length := by
  rw [g2r_eq] at h
  exact exMapM_ok_map2 _ _ _ _ _ h
    (fun run rec hrec => buildRun_samples_length _ _ _ run rec hrec)

theorem g2r_not_sampleNot (gts : List Genotype) (so cols : List String)
    (hall : ∀ g ∈ gts, g.sample_name ∈ so) :
    ∀ n, genotypes_to_records gts so cols ≠ .error (.sampleNotInOrdering n) := by
  intro n hc
  rw [g2r_eq] at hc
  rcases exMapM_err_inv _ _ _ hc with ⟨r, hr, hre⟩
  have ho := buildRun_err_sampleNot _ _ _ r n hre
  rcases order_err_inv r so _ ho with ⟨g, hg, _, hn⟩
  have hgts : g ∈ gts := by
    rw [← runsBy_join _call_key gts]
    exact List.mem_flatten.mpr ⟨r, hr, hg⟩
  exact hn (hall g hgts)

theorem exMapM_buildRun_err_any (so i f : List String) (rs : List (List Genotype))
    (hbad : ∃ r ∈ rs, ∃ g ∈ r, g.sample_name ∉ so) :
    ∃ e, exMapM (buildRun so i f) rs = .error e := by
  induction rs with
  | nil => rcases hbad with ⟨r, hr, _⟩; cases hr
  | cons r rest ih =>
    cases hbr : buildRun so i f r with
    | error e => exact ⟨e, by rw [exMapM_cons, hbr]; simp [Except.bind]⟩
    | ok rec =>
      have hnames : ∀ g ∈ r, g.sample_name ∈ so := by
        rcases buildRun_ok_inv so i f r rec hbr with ⟨sorted, _, _, _, ho, _, _, _⟩
        exact order_ok_names r so sorted ho
      rcases hbad with ⟨r2, hr2, g2, hg2, hbad2⟩
      have hr2rest : r2 ∈ rest := by
        rcases List.mem_cons.mp hr2 with hh | hh
        · subst hh; exact absurd (hnames g2 hg2) hbad2
        · exact hh
      rcases ih ⟨r2, hr2rest, g2, hg2, hbad2⟩ with ⟨e, he⟩
      refine ⟨e, ?_⟩
      rw [exMapM_cons, hbr]
      simp only [Except.bind]
      rw [he]

theorem mem_dropWhile (p : Char → Bool) (l : List Char) (c : Char)
    (hc : p c = false) (hm : c ∈ l) : c ∈ l.dropWhile p := by
  induction l with
  | nil => cases hm
  | cons a t ih =>
    rw [List.dropWhile_cons]
    by_cases ha : p a = true
    · rw [if_pos ha]
      rcases List.mem_cons.mp hm with hm | hm
      · rw [hm] at hc; rw [hc] at ha; cases ha
      · exact ih hm
    · rw [if_neg ha]
      exact hm

theorem dropWhile_subset (p : Char → Bool) (l : List Char) :
    ∀ c ∈ l.dropWhile p, c ∈ l := by
  induction l with
  | nil => simp
  | cons a t ih =>
    rw [List.dropWhile_cons]
    by_cases ha : p a = true
    · rw [if_pos ha]
      exact fun c hc => List.mem_cons_of_mem a (ih c hc)
    · rw [if_neg ha]
      exact fun c hc => hc

theorem mem_stripChars (l : List Char) (c : Char)
    (hc : isPySpace c = false) (hm : c ∈ l) : c ∈ stripChars l := by
  unfold stripChars rstripChars
  apply List.mem_reverse.mpr
  apply mem_dropWhile _ _ _ hc
  apply List.mem_reverse.mpr
  exact mem_dropWhile _ _ _ hc hm

theorem stripChars_subset (l : List Char) : ∀ c ∈ stripChars l, c ∈ l := by
  intro c hc
  unfold stripChars rstripChars at hc
  have h1 := dropWhile_subset isPySpace _ c (List.mem_reverse.mp hc)
  have h2 := List.mem_reverse.mp h1
  exact dropWhile_subset isPySpace l c h2

theorem dropWhile_dropWhile (p : Char → Bool) (l : List Char) :
    (l.dropWhile p).dropWhile p = l.dropWhile p := by
  induction l with
  | nil => rfl
  | cons a t ih =>
    rw [List.dropWhile_cons]
    by_cases ha : p a = true
    · rw [if_pos ha]; exact ih
    · rw [if_neg ha, List.dropWhile_cons, if_neg ha]

theorem dropWhile_head_false (p : Char → Bool) (l : List Char) (c : Char) (t : List Char)
    (h : l.dropWhile p = c :: t) : p c = false := by
  induction l with
  | nil => cases h
  | cons a t2 ih =>
    rw [List.dropWhile_cons] at h
    by_cases ha : p a = true
    · rw [if_pos ha] at h; exact ih h
    · rw [if_neg ha] at h
      have hac : a = c := ((List.cons.injEq _ _ _ _).mp h).1
      rw [← hac]
      cases hpa : p a with
      | false => rfl
      | true => exact absurd hpa ha

theorem dropWhile_cons_false (p : Char → Bool) (c : Char) (t : List Char)
    (hc : p c = false) : (c :: t).dropWhile p = c :: t := by
  rw [List.dropWhile_cons, if_neg]
  rw [hc]
  simp

theorem dropWhile_append_all (p : Char → Bool) (l1 l2 : List Char)
    (h : ∀ x ∈ l1, p x = true) : (l1 ++ l2).dropWhile p = l2.dropWhile p := by
  induction l1 with
  | nil => rfl
  | cons a t ih =>
    rw [List.cons_append, List.dropWhile_cons, if_pos (h a (List.mem_cons_self _ _))]
    exact ih (fun x hx => h x (List.mem_cons_of_mem a hx))

theorem dropWhile_append_ne (p : Char → Bool) (l1 l2 : List Char)
    (h : l1.dropWhile p ≠ []) : (l1 ++ l2).dropWhile p = l1.dropWhile p ++ l2 := by
  induction l1 with
  | nil => exact absurd rfl h
  | cons a t ih =>
    rw [List.dropWhile_cons] at h
    rw [List.cons_append, List.dropWhile_cons]
    by_cases ha : p a = true
    · rw [if_pos ha]
      rw [if_pos ha] at h
      rw [List.dropWhile_cons, if_pos ha]
      exact ih h
    · rw [if_neg ha]
      rw [List.dropWhile_cons, if_neg ha, List.cons_append]

theorem rstrip_cons (c : Char) (t : List Char) (hc : isPySpace c = false) :
    ∃ m, rstripChars (c :: t) = c :: m := by
  unfold rstripChars
  rw [List.reverse_cons]
  by_cases hd : t.reverse.dropWhile isPySpace = []
  · rw [dropWhile_append_all isPySpace t.reverse [c]
      (fun x hx => List.dropWhile_eq_nil_iff.mp hd x hx)]
    rw [dropWhile_cons_false isPySpace c [] hc]
    exact ⟨[], rfl⟩
  · rw [dropWhile_append_ne isPySpace t.reverse [c] hd]
    rw [List.reverse_append]
    exact ⟨(t.reverse.dropWhile isPySpace).reverse, rfl⟩

theorem rstrip_idem (l : List Char) : rstripChars (rstripChars l) = rstripChars l := by
  unfold rstripChars
  rw [List.reverse_reverse, dropWhile_dropWhile]

theorem ldrop_rstrip (l : List Char) (hl : l.dropWhile isPySpace = l) :
    (rstripChars l).dropWhile isPySpace = rstripChars l := by
  cases hc : l with
  | nil => rfl
  | cons c t =>
    have hcf : isPySpace c = false := by
      rw [hc] at hl
      exact dropWhile_head_false isPySpace (c :: t) c t hl
    rcases rstrip_cons c t hcf with ⟨m, hm⟩
    rw [hm]
    exact dropWhile_cons_false isPySpace c m hcf

theorem stripChars_idem (l : List Char) : stripChars (stripChars l) = stripChars l := by
  show rstripChars ((rstripChars (l.dropWhile isPySpace)).dropWhile isPySpace)
    = rstripChars (l.dropWhile isPySpace)
  rw [ldrop_rstrip (l.dropWhile isPySpace) (dropWhile_dropWhile isPySpace l)]
  exact rstrip_idem (l.dropWhile isPySpace)

theorem splitComma_ne_nil (l : List Char) : splitComma l ≠ [] := by
  cases l with
  | nil => simp [splitComma]
  | cons c rest =>
    show (match splitComma rest with
      | h :: t => if c = ',' then [] :: h :: t else (c :: h) :: t
      | [] => [[]]) ≠ []
    cases splitComma rest with
    | nil => simp
    | cons h t =>
      by_cases hc : c = ','
      · simp [hc]
      · simp [hc]

theorem splitComma_pieces (l : List Char) : ∀ p ∈ splitComma l, ',' ∉ p := by
  induction l with
  | nil => simp [splitComma]
  | cons c rest ih =>
    show ∀ p ∈ (match splitComma rest with
      | h :: t => if c = ',' then [] :: h :: t else (c :: h) :: t
      | [] => [[]]), ',' ∉ p
    cases hs : splitComma rest with
    | nil => exact absurd hs (splitComma_ne_nil rest)
    | cons h t =>
      rw [hs] at ih
      by_cases hc : c = ','
      · simp only [if_pos hc]
        intro p hp
        rcases List.mem_cons.mp hp with hp | hp
        · rw [hp]; simp
        · exact ih p hp
      · simp only [if_neg hc]
        intro p hp
        rcases List.mem_cons.mp hp with hp | hp
        · rw [hp]
          intro hmem
          rcases List.mem_cons.mp hmem with hx | hx
          · exact hc hx.symm
          · exact ih h (List.mem_cons_self _ _) hx
        · exact ih p (List.mem_cons_of_mem h hp)

theorem splitComma_no_comma (l : List Char) (h : ',' ∉ l) : splitComma l = [l] := by
  induction l with
  | nil => rfl
  | cons c rest ih =>
    have hc : ¬(c = ',') := fun hcc => h (by rw [hcc]; exact List.mem_cons_self _ _)
    have hrest : ',' ∉ rest := fun hm => h (List.mem_cons_of_mem c hm)
    show (match splitComma rest with
      | h :: t => if c = ',' then [] :: h :: t else (c :: h) :: t
      | [] => [[]]) = [c :: rest]
    rw [ih hrest]
    simp [hc]

theorem splitComma_append (h m : List Char) (hh : ',' ∉ h) :
    splitComma (h ++ ',' :: m) = h :: splitComma m := by
  induction h with
  | nil =>
    show (match splitComma m with
      | h :: t => if ',' = ',' then [] :: h :: t else (',' :: h) :: t
      | [] => [[]]) = [] :: splitComma m
    cases hs : splitComma m with
    | nil => exact absurd hs (splitComma_ne_nil m)
    | cons h2 t2 => simp
  | cons c rest ih =>
    have hc : ¬(c = ',') := fun hcc => hh (by rw [hcc]; exact List.mem_cons_self _ _)
    have hrest : ',' ∉ rest := fun hm2 => hh (List.mem_cons_of_mem c hm2)
    show (match splitComma (rest ++ ',' :: m) with
      | h :: t => if c = ',' then [] :: h :: t else (c :: h) :: t
      | [] => [[]]) = (c :: rest) :: splitComma m
    rw [ih hrest]
    simp [hc]

theorem splitComma_joinComma (ls : List (List Char)) (hne : ls ≠ [])
    (hp : ∀ p ∈ ls, ',' ∉ p) : splitComma (joinComma ls) = ls := by
  induction ls with
  | nil => exact absurd rfl hne
  | cons h t ih =>
    cases t with
    | nil =>
      show splitComma h = [h]
      exact splitComma_no_comma h (hp h (List.mem_cons_self _ _))
    | cons h2 t2 =>
      show splitComma (h ++ ',' :: joinComma (h2 :: t2)) = h :: h2 :: t2
      rw [splitComma_append h (joinComma (h2 :: t2)) (hp h (List.mem_cons_self _ _))]
      rw [ih (by simp) (fun p hp2 => hp p (List.mem_cons_of_mem h hp2))]

theorem comma_mem_joinComma (ls : List (List Char)) (h : 2 ≤ ls.length) :
    ',' ∈ joinComma ls := by
  cases ls with
  | nil => simp at h
  | cons a t =>
    cases t with
    | nil => simp at h
    | cons b t2 =>
      show ',' ∈ a ++ ',' :: joinComma (b :: t2)
      exact List.mem_append.mpr (Or.inr (List.mem_cons_self _ _))

theorem intSign_comma (l : List Char) (h : ',' ∈ l) : ',' ∈ (intSign l).2 := by
  cases l with
  | nil => cases h
  | cons c r =>
    show ',' ∈ (if c = '+' then ((1 : Int), r)
      else if c = '-' then (-1, r) else (1, c :: r)).2
    by_cases hp : c = '+'
    · rw [if_pos hp]
      rcases List.mem_cons.mp h with hh | hh
      · rw [hp] at hh; cases hh
      · exact hh
    · rw [if_neg hp]
      by_cases hm : c = '-'
      · rw [if_pos hm]
        rcases List.mem_cons.mp h with hh | hh
        · rw [hm] at hh; cases hh
        · exact hh
      · rw [if_neg hm]
        exact h

theorem all_digits_comma (l : List Char) (h : ',' ∈ l) : l.all Char.isDigit = false := by
  cases hall : l.all Char.isDigit with
  | false => rfl
  | true => exact absurd (List.all_eq_true.mp hall ',' h) (by decide)

theorem pyIntParse_comma (s : String) (h : ',' ∈ s.data) : pyIntParse s = none := by
  unfold pyIntParse
  have h1 : ',' ∈ stripChars s.data := mem_stripChars s.data ',' (by decide) h
  have h2 : ',' ∈ (intSign (stripChars s.data)).2 := intSign_comma _ h1
  rw [if_neg]
  intro hcond
  rw [all_digits_comma _ h2] at hcond
  cases hcond.2

theorem parseExpOpt_comma (l : List Char) (h : ',' ∈ l) : parseExpOpt l = none := by
  cases l with
  | nil => cases h
  | cons c r =>
    show (if c = 'e' ∨ c = 'E' then
        if (intSign r).2 ≠ [] ∧ (intSign r).2.all Char.isDigit
        then some ((intSign r).1 * (natOfDigits (intSign r).2 : Nat))
        else none
      else none) = none
    by_cases he : c = 'e' ∨ c = 'E'
    · rw [if_pos he]
      have hr : ',' ∈ r := by
        rcases List.mem_cons.mp h with hh | hh
        · rcases he with he | he <;> rw [he] at hh <;> cases hh
        · exact hh
      have h2 := intSign_comma r hr
      rw [if_neg]
      intro hcond
      rw [all_digits_comma _ h2] at hcond
      cases hcond.2
    · rw [if_neg he]

theorem pyFloatMag_comma (l : List Char) (h : ',' ∈ l) : pyFloatMag l = none := by
  have hr1 : ',' ∈ l.dropWhile Char.isDigit := mem_dropWhile _ _ _ (by decide) h
  cases hd : l.dropWhile Char.isDigit with
  | nil => rw [hd] at hr1; cases hr1
  | cons c r2 =>
    rw [hd] at hr1
    have heq : pyFloatMag l = (if c = '.' then
        (if l.takeWhile Char.isDigit = [] ∧ r2.takeWhile Char.isDigit = [] then none
         else
           match parseExpOpt (r2.dropWhile Char.isDigit) with
           | some e =>
             some (((natOfDigits (l.takeWhile Char.isDigit) : ℚ) +
               (natOfDigits (r2.takeWhile Char.isDigit) : ℚ)
                 / (10 : ℚ) ^ (r2.takeWhile Char.isDigit).length) * qpow10 e)
           | none => none)
      else
        (if l.takeWhile Char.isDigit = [] then none
         else
           match parseExpOpt (c :: r2) with
           | some e => some ((natOfDigits (l.takeWhile Char.isDigit) : ℚ) * qpow10 e)
           | none => none)) := by
      unfold pyFloatMag
      rw [hd]
    rw [heq]
    by_cases hdot : c = '.'
    · rw [if_pos hdot]
      have hr2 : ',' ∈ r2 := by
        rcases List.mem_cons.mp hr1 with hh | hh
        · rw [hdot] at hh; cases hh
        · exact hh
      have hr3 : ',' ∈ r2.dropWhile Char.isDigit := mem_dropWhile _ _ _ (by decide) hr2
      rw [parseExpOpt_comma _ hr3]
      by_cases hc2 : l.takeWhile Char.isDigit = [] ∧ r2.takeWhile Char.isDigit = []
      · rw [if_pos hc2]
      · rw [if_neg hc2]
    · rw [if_neg hdot]
      rw [parseExpOpt_comma _ hr1]
      by_cases hc2 : l.takeWhile Char.isDigit = []
      · rw [if_pos hc2]
      · rw [if_neg hc2]

theorem map_toLower_comma (l : List Char) (h : ',' ∈ l) : ',' ∈ l.map Char.toLower := by
  have : Char.toLower ',' = ',' := by decide
  rw [← this]
  exact List.mem_map.mpr ⟨',', h, rfl⟩

theorem pyFloatParse_comma (s : String) (h : ',' ∈ s.data) : pyFloatParse s = none := by
  have h1 : ',' ∈ stripChars s.data := mem_stripChars s.data ',' (by decide) h
  unfold pyFloatParse
  cases hl : stripChars s.data with
  | nil => rw [hl] at h1; cases h1
  | cons c r =>
    rw [hl] at h1
    have key : ∀ rest : List Char, ',' ∈ rest →
        (if rest.map Char.toLower = "inf".data ∨ rest.map Char.toLower = "infinity".data
         then some (PyFloat.inf false)
         else if rest.map Char.toLower = "nan".data then some PyFloat.nan
         else match pyFloatMag rest with
           | some q => some (.finite q)
           | none => none) = none := by
      intro rest hrest
      have hlow := map_toLower_comma rest hrest
      rw [if_neg, if_neg]
      · rw [pyFloatMag_comma rest hrest]
      · intro hc
        rw [hc] at hlow
        exact absurd hlow (by decide)
      · intro hc
        rcases hc with hc | hc
        · rw [hc] at hlow
          exact absurd hlow (by decide)
        · rw [hc] at hlow
          exact absurd hlow (by decide)
    have key2 : ∀ rest : List Char, ',' ∈ rest →
        (if rest.map Char.toLower = "inf".data ∨ rest.map Char.toLower = "infinity".data
         then some (PyFloat.inf true)
         else if rest.map Char.toLower = "nan".data then some PyFloat.nan
         else match pyFloatMag rest with
           | some q => some (.finite (-q))
           | none => none) = none := by
      intro rest hrest
      have hlow := map_toLower_comma rest hrest
      rw [if_neg, if_neg]
      · rw [pyFloatMag_comma rest hrest]
      · intro hc
        rw [hc] at hlow
        exact absurd hlow (by decide)
      · intro hc
        rcases hc with hc | hc
        · rw [hc] at hlow
          exact absurd hlow (by decide)
        · rw [hc] at hlow
          exact absurd hlow (by decide)
    show (match (if c = '+' then (false, r)
        else if c = '-' then (true, r) else (false, c :: r)) with
      | (neg, rest) =>
        if rest.map Char.toLower = "inf".data ∨ rest.map Char.toLower = "infinity".data
        then some (PyFloat.inf neg)
        else if rest.map Char.toLower = "nan".data then some PyFloat.nan
        else match pyFloatMag rest with
          | some q => some (.finite (if neg then -q else q))
          | none => none) = none
    by_cases hp : c = '+'
    · rw [if_pos hp]
      have hr : ',' ∈ r := by
        rcases List.mem_cons.mp h1 with hh | hh
        · rw [hp] at hh; cases hh
        · exact hh
      exact key r hr
    · rw [if_neg hp]
      by_cases hm : c = '-'
      · rw [if_pos hm]
        have hr : ',' ∈ r := by
          rcases List.mem_cons.mp h1 with hh | hh
          · rw [hm] at hh; cases hh
          · exact hh
        exact key2 r hr
      · rw [if_neg hm]
        exact key (c :: r) h1

theorem stripChars_cons_head (c : Char) (t : List Char) (hc : isPySpace c = false) :
    ∃ m, stripChars (c :: t) = c :: m := by
  unfold stripChars
  rw [dropWhile_cons_false isPySpace c t hc]
  exact rstrip_cons c t hc

theorem joinComma_ne_nil (ls : List (List Char)) (h : ls ≠ [])
    (hlast : ∀ p, ls.getLast? = some p → p ≠ []) : joinComma ls ≠ [] := by
  cases ls with
  | nil => exact absurd rfl h
  | cons a t =>
    cases t with
    | nil =>
      show a ≠ []
      exact hlast a (List.getLast?_singleton a)
    | cons b t2 =>
      show a ++ ',' :: joinComma (b :: t2) ≠ []
      intro hc
      rcases List.append_eq_nil.mp hc with ⟨_, hc2⟩
      cases hc2

theorem joinComma_drop1 (h : List Char) (t : List (List Char)) (hne : h ≠ []) :
    (joinComma (h :: t)).drop 1 = joinComma (h.drop 1 :: t) := by
  cases t with
  | nil =>
    show h.drop 1 = h.drop 1
    rfl
  | cons h2 t2 =>
    show (h ++ ',' :: joinComma (h2 :: t2)).drop 1
      = h.drop 1 ++ ',' :: joinComma (h2 :: t2)
    cases h with
    | nil => exact absurd rfl hne
    | cons c h3 =>
      rw [List.cons_append]
      simp [List.drop]

theorem mapLast_cons_cons (f : List Char → List Char) (a b : List Char)
    (t : List (List Char)) : mapLast f (a :: b :: t) = a :: mapLast f (b :: t) := rfl

theorem joinComma_dropLast (ls : List (List Char))
    (hlast : ∀ p, ls.getLast? = some p → p ≠ []) :
    (joinComma ls).dropLast = joinComma (mapLast List.dropLast ls) := by
  induction ls with
  | nil => rfl
  | cons a t ih =>
    cases t with
    | nil =>
      show a.dropLast = joinComma [a.dropLast]
      rfl
    | cons b t2 =>
      have hlast2 : ∀ p, (b :: t2).getLast? = some p → p ≠ [] := by
        intro p hp
        apply hlast
        rw [List.getLast?_cons_cons]
        exact hp
      have hjoin_ne : joinComma (b :: t2) ≠ [] := joinComma_ne_nil (b :: t2) (by simp) hlast2
      show (a ++ ',' :: joinComma (b :: t2)).dropLast
        = joinComma (a :: mapLast List.dropLast (b :: t2))
      rw [List.dropLast_append_cons]
      rw [List.dropLast_cons_of_ne_nil hjoin_ne]
      rw [ih hlast2]
      have hml : mapLast List.dropLast (b :: t2) ≠ [] := by
        cases t2 <;> simp [mapLast]
      cases hmleq : mapLast List.dropLast (b :: t2) with
      | nil => exact absurd hmleq hml
      | cons m mt =>
        show a ++ ',' :: joinComma (m :: mt) = joinComma (a :: m :: mt)
        rfl

theorem splitComma_head (c : Char) (t : List Char) (hc : ¬(c = ',')) :
    ∃ u rs, splitComma (c :: t) = (c :: u) :: rs := by
  show ∃ u rs, (match splitComma t with
    | h :: t2 => if c = ',' then [] :: h :: t2 else (c :: h) :: t2
    | [] => [[]]) = (c :: u) :: rs
  cases hs : splitComma t with
  | nil => exact absurd hs (splitComma_ne_nil t)
  | cons h t2 =>
    refine ⟨h, t2, ?_⟩
    show (if c = ',' then [] :: h :: t2 else (c :: h) :: t2) = (c :: h) :: t2
    rw [if_neg hc]

theorem splitComma_last_mem (l : List Char) (c : Char) (hc : ¬(c = ',')) :
    l.getLast? = some c →
    ∃ p, (splitComma l).getLast? = some p ∧ c ∈ p := by
  induction l with
  | nil => intro hl; cases hl
  | cons a t ih =>
    intro hl
    cases t with
    | nil =>
      have hac : a = c := by
        rw [List.getLast?_singleton] at hl
        exact (Option.some.injEq _ _).mp hl
      have hanc : ¬(a = ',') := by rw [hac]; exact hc
      rcases splitComma_head a [] hanc with ⟨u, rs, hu⟩
      have hu2 : splitComma [a] = [[a]] := by
        show (match splitComma ([] : List Char) with
          | h :: t2 => if a = ',' then [] :: h :: t2 else (a :: h) :: t2
          | [] => [[]]) = [[a]]
        show (if a = ',' then [[], []] else [[a]]) = [[a]]
        rw [if_neg hanc]
      rw [hu2]
      exact ⟨[a], rfl, by rw [hac]; exact List.mem_cons_self _ _⟩
    | cons b t2 =>
      have hl2 : (b :: t2).getLast? = some c := by
        rwa [List.getLast?_cons_cons] at hl
      rcases ih hl2 with ⟨p, hp, hcp⟩
      cases hs : splitComma (b :: t2) with
      | nil => exact absurd hs (splitComma_ne_nil _)
      | cons h t3 =>
        rw [hs] at hp
        have hexp : splitComma (a :: b :: t2)
            = if a = ',' then [] :: h :: t3 else (a :: h) :: t3 := by
          show (match splitComma (b :: t2) with
            | h :: t2 => if a = ',' then [] :: h :: t2 else (a :: h) :: t2
            | [] => [[]]) = _
          rw [hs]
        rw [hexp]
        by_cases ha : a = ','
        · rw [if_pos ha]
          refine ⟨p, ?_, hcp⟩
          rw [List.getLast?_cons_cons]
          exact hp
        · rw [if_neg ha]
          cases t3 with
          | nil =>
            have hph : p = h := by
              rw [List.getLast?_singleton] at hp
              exact ((Option.some.injEq _ _).mp hp).symm
            refine ⟨a :: h, List.getLast?_singleton _, ?_⟩
            rw [← hph]
            exact List.mem_cons_of_mem a hcp
          | cons x xs =>
            refine ⟨p, ?_, hcp⟩
            rw [List.getLast?_cons_cons]
            rw [List.getLast?_cons_cons] at hp
            exact hp

theorem exMapM_buildRun_err_wf (so cols : List String) (rs : List (List Genotype))
    (hne : ∀ r ∈ rs, r ≠ [])
    (hwf : ∀ r ∈ rs, ∀ g ∈ r, callOk cols g = true)
    (hbad : ∃ r ∈ rs, ∃ g ∈ r, g.sample_name ∉ so) :
    ∃ n, exMapM (buildRun so (_fields_from_columns cols).1 (_fields_from_columns cols).2) rs
      = .error (.sampleNotInOrdering n) ∧ n ∉ so := by
  induction rs with
  | nil => rcases hbad with ⟨r, hr, _⟩; cases hr
  | cons r rest ih =>
    by_cases hbr : ∃ g ∈ r, g.sample_name ∉ so
    · rcases order_err_of_bad r so hbr with ⟨n, ho, hn⟩
      refine ⟨n, ?_, hn⟩
      rw [exMapM_cons, buildRun_eq, ho]
      simp [Except.bind]
    · have hgood : ∀ g ∈ r, g.sample_name ∈ so := by
        push_neg at hbr
        exact hbr
      rcases buildRun_ok_of so cols r (hne r (List.mem_cons_self _ _))
        (hwf r (List.mem_cons_self _ _)) hgood with ⟨rec, hrec⟩
      rcases hbad with ⟨r2, hr2, g2, hg2, hbad2⟩
      have hr2rest : r2 ∈ rest := by
        rcases List.mem_cons.mp hr2 with hh | hh
        · subst hh; exact absurd (hgood g2 hg2) hbad2
        · exact hh
      rcases ih (fun x hx => hne x (List.mem_cons_of_mem r hx))
        (fun x hx => hwf x (List.mem_cons_of_mem r hx))
        ⟨r2, hr2rest, g2, hg2, hbad2⟩ with ⟨n, hrest, hn⟩
      refine ⟨n, ?_, hn⟩
      rw [exMapM_cons, hrec]
      simp only [Except.bind]
      rw [hrest]

theorem data_mk (l : List Char) : (String.mk l).data = l := rfl

/-- C6: the value formatter maps null to the missing marker ".", the string
"42" to the Python int 42, the string "3.14" to the Python float 3.14 (the
rational 157/50), the bare comma list "A,B,C" to itself, and the bracketed
list "[A, B,C]" to the normalized "A,B,C". -/
theorem claim_C6 :
    vcf_format none = Except.ok (.str ".") ∧
    vcf_format (some "42") = Except.ok (.int 42) ∧
    vcf_format (some "3.14") = Except.ok (.float (.finite (157 / 50))) ∧
    vcf_format (some "A,B,C") = Except.ok (.str "A,B,C") ∧
    vcf_format (some "[A, B,C]") = Except.ok (.str "A,B,C") := by
  refine ⟨by decide, by decide, ?_, by decide, by decide⟩
  have h : vcf_format (some "3.14") =
      Except.ok (.float (.finite (((natOfDigits ['3'] : ℚ) +
        (natOfDigits ['1', '4'] : ℚ) / (10 : ℚ) ^ (2 : ℕ)) * qpow10 0))) := rfl
  rw [h]
  have e1 : natOfDigits ['3'] = 3 := by decide
  have e2 : natOfDigits ['1', '4'] = 14 := by decide
  have e3 : qpow10 0 = 1 := by
    show (10 : ℚ) ^ (0 : ℕ) = 1
    norm_num
  rw [e1, e2, e3]
  norm_num

/-- C10: the empty string takes the text path and is returned unchanged, so
an empty stored value renders differently from an absent one, which alone
becomes the missing marker ".". -/
theorem claim_C10 :
    vcf_format (some "") = Except.ok (.str "") ∧
    vcf_format none = Except.ok (.str ".") ∧
    PyValue.str "" ≠ PyValue.str "." := by decide

/-- C8: vcf_format raises exactly on a string that parses as neither int nor
float, splits on commas into more than one piece, opens with a bracket and
does not close with one; every other input, null included, returns normally,
so the int to float to text cascade itself never raises. -/
theorem claim_C8 :
    (∀ s : String, (∃ e, vcf_format (some s) = Except.error e) ↔
      (pyIntParse s = none ∧ pyFloatParse s = none ∧
       1 < (splitComma s.data).length ∧
       s.data.head? = some '[' ∧ s.data.getLast? ≠ some ']')) ∧
    vcf_format none = Except.ok (.str ".") := by
  constructor
  · intro s
    rw [vcf_format_some_eq]
    cases hI : pyIntParse s with
    | some n =>
      constructor
      · rintro ⟨e, he⟩; cases he
      · rintro ⟨hc, _⟩; cases hc
    | none =>
      cases hF : pyFloatParse s with
      | some f =>
        constructor
        · rintro ⟨e, he⟩; cases he
        · rintro ⟨_, hc, _⟩; cases hc
      | none =>
        by_cases h1 : (splitComma s.data).length ≤ 1
        · rw [if_pos h1]
          constructor
          · rintro ⟨e, he⟩; cases he
          · rintro ⟨_, _, hlen, _, _⟩; omega
        · rw [if_neg h1]
          by_cases h2 : s.data.head? ≠ some '['
          · rw [if_pos h2]
            constructor
            · rintro ⟨e, he⟩; cases he
            · rintro ⟨_, _, _, hhead, _⟩; exact absurd hhead h2
          · rw [if_neg h2]
            push_neg at h2
            by_cases h3 : s.data.getLast? ≠ some ']'
            · rw [if_pos h3]
              constructor
              · intro _
                exact ⟨rfl, rfl, by omega, h2, h3⟩
              · intro _
                exact ⟨Err.assertionError, rfl⟩
            · rw [if_neg h3]
              push_neg at h3
              constructor
              · rintro ⟨e, he⟩; cases he
              · rintro ⟨_, _, _, _, hlast⟩; exact absurd h3 hlast
  · rfl

/-- C8 witness at the malformed input with an unclosed bracket. -/
theorem claim_C8_witness : ∃ e, vcf_format (some "[a,b") = Except.error e :=
  (claim_C8.1 "[a,b").mpr ⟨by decide, by decide, by decide, by decide, by decide⟩

/-- C2 counterexample: two adjacent calls with different 4-tuples whose
dash-joined key strings collide land in the same group, so key equality does
not imply 4-tuple equality. -/
theorem claim_C2_counterexample :
    _call_key c2g1 = _call_key c2g2 ∧
    c2g1.contig ≠ c2g2.contig ∧
    runsBy _call_key [c2g1, c2g2] = [[c2g1, c2g2]] ∧
    (genotypes_to_records [c2g1, c2g2] ["s1", "s2"] []).toOption.map List.length
      = some 1 := by decide

/-- C2 amended: two adjacent calls share a locus group exactly when their
dash-joined key strings are equal; equal 4-tuples give equal keys, but the
converse fails when a field contains a dash. -/
theorem claim_C2 (g1 g2 : Genotype) (l : List Genotype) :
    (g2 ∈ (runsBy _call_key (g1 :: g2 :: l)).headD [] ↔ _call_key g1 = _call_key g2) ∧
    (g1.contig = g2.contig → g1.position = g2.position → g1.reference = g2.reference →
      g1.alternates = g2.alternates → _call_key g1 = _call_key g2) := by
  constructor
  · rcases runsBy_head_cons _call_key g2 l with ⟨t, rs, hu⟩
    have hexp : runsBy _call_key (g1 :: g2 :: l)
        = if _call_key g1 = _call_key g2 then (g1 :: g2 :: t) :: rs
          else [g1] :: (g2 :: t) :: rs := by
      show (match runsBy _call_key (g2 :: l) with
        | (h :: t) :: rs => if _call_key g1 = _call_key h then (g1 :: h :: t) :: rs
            else [g1] :: (h :: t) :: rs
        | _ => [[g1]]) = _
      rw [hu]
    rw [hexp]
    by_cases hk : _call_key g1 = _call_key g2
    · rw [if_pos hk]
      constructor
      · intro _; exact hk
      · intro _
        show g2 ∈ g1 :: g2 :: t
        exact List.mem_cons_of_mem g1 (List.mem_cons_self g2 t)
    · rw [if_neg hk]
      constructor
      · intro hm
        have hg : g2 = g1 := by simpa using hm
        rw [hg]
      · intro hkk; exact absurd hkk hk
  · intro h1 h2 h3 h4
    unfold _call_key
    rw [h1, h2, h3, h4]

/-- C2 witness: two calls with equal 4-tuples are grouped together. -/
theorem claim_C2_witness :
    gC1b ∈ (runsBy _call_key (gC1a :: gC1b :: [])).headD [] :=
  (claim_C2 gC1a gC1b []).1.mpr ((claim_C2 gC1a gC1b []).2 rfl rfl rfl rfl)

/-- C1: on the three call example the pipeline emits two records with two and
one samples in locus order; in general the records correspond one to one, in
order, to the maximal contiguous runs of equal grouping key, whose defining
properties (they concatenate back to the input, are nonempty and key
constant, and adjacent runs differ in key) also hold. -/
theorem claim_C1 :
    ((genotypes_to_records c1Calls ["sampleA", "sampleB"] []).toOption.map
       (fun rs => rs.map (fun r => (r.chrom, r.pos, r.samples.length)))
     = some [("chr7", "100", 2), ("chr7", "200", 1)]) ∧
    (∀ gts so cols recs, genotypes_to_records gts so cols = .ok recs →
      recs.map (fun r => r.samples.length) = (runsBy _call_key gts).map List.length) ∧
    (∀ gts : List Genotype, (runsBy _call_key gts).flatten = gts ∧
      (∀ r ∈ runsBy _call_key gts, r ≠ [] ∧ ∀ a ∈ r, ∀ b ∈ r, _call_key a = _call_key b) ∧
      List.Chain' (fun r1 r2 => ∀ a ∈ r1, ∀ b ∈ r2, _call_key a ≠ _call_key b)
        (runsBy _call_key gts)) := by
  refine ⟨by decide, ?_, ?_⟩
  · intro gts so cols recs h
    exact g2r_lengths gts so cols recs h
  · intro gts
    exact ⟨runsBy_join _call_key gts,
      fun r hr => ⟨runsBy_ne_nil _call_key gts r hr, runsBy_key_const _call_key gts r hr⟩,
      runsBy_chain _call_key gts⟩

/-- C1 witness: the record per run correspondence evaluated on the example. -/
theorem claim_C1_witness :
    c1Recs.map (fun r => r.samples.length) = (runsBy _call_key c1Calls).map List.length :=
  claim_C1.2.1 c1Calls ["sampleA", "sampleB"] [] c1Recs (by decide)

/-- C3: with sample_ordering TUMOR, NORMAL and input calls NORMAL then TUMOR
at one locus, the assembled record lists TUMOR before NORMAL; in general the
reordered group is sorted by position of the sample name in the ordering,
and calls with an equal sample name keep their input relative order. -/
theorem claim_C3 :
    ((genotypes_to_records [gNormal, gTumor] ["TUMOR", "NORMAL"] ["sample:GT"]).toOption.map
       (fun rs => rs.map (fun r => r.samples.map (fun c => c.sample)))
     = some [["TUMOR", "NORMAL"]]) ∧
    (∀ gts ordering sorted, order gts ordering = .ok sorted →
      sorted.Pairwise (fun a b => ∀ i j, ordIdx ordering a.sample_name = some i →
        ordIdx ordering b.sample_name = some j → i ≤ j) ∧
      (∀ name, sorted.filter (fun g => g.sample_name == name)
        = gts.filter (fun g => g.sample_name == name))) := by
  refine ⟨by decide, ?_⟩
  intro gts ordering sorted h
  exact ⟨order_sorted gts ordering sorted h,
    fun name => order_filter gts ordering sorted h name⟩

/-- C3 witness: stability of the reordering evaluated on the example group. -/
theorem claim_C3_witness :
    ([gTumor, gNormal].filter (fun g => g.sample_name == "TUMOR"))
      = ([gNormal, gTumor].filter (fun g => g.sample_name == "TUMOR")) :=
  (claim_C3.2 [gNormal, gTumor] ["TUMOR", "NORMAL"] [gTumor, gNormal] (by decide)).2 "TUMOR"

/-- C4 counterexample: with an unknown sample present in a later group, a
malformed bracketed value in an earlier group aborts the batch first, so the
error is the bracket assertion, not the precondition violation. -/
theorem claim_C4_counterexample :
    gUnknown.sample_name ∉ (["A"] : List String) ∧
    genotypes_to_records [gBadVal, gUnknown] ["A"] ["sample:GT"]
      = Except.error Err.assertionError ∧
    (∀ n, Err.assertionError ≠ Err.sampleNotInOrdering n) := by
  refine ⟨by decide, by decide, ?_⟩
  intro n h
  cases h

/-- C4 amended: a call whose sample name the ordering lacks always makes
genotypes_to_records fail with zero output records; if moreover every call
carries present, well formed info and sample values, the error is the
precondition violation itself, and when every sample name is present no
precondition violation is ever raised. -/
theorem claim_C4 (gts : List Genotype) (ordering cols : List String) :
    ((∃ g ∈ gts, g.sample_name ∉ ordering) →
      (∃ e, genotypes_to_records gts ordering cols = .error e) ∧
      (gts.all (callOk cols) = true →
        ∃ n, genotypes_to_records gts ordering cols
          = .error (.sampleNotInOrdering n) ∧ n ∉ ordering)) ∧
    ((∀ g ∈ gts, g.sample_name ∈ ordering) →
      ∀ n, genotypes_to_records gts ordering cols ≠ .error (.sampleNotInOrdering n)) := by
  constructor
  · intro hbad
    have hbadruns : ∃ r ∈ runsBy _call_key gts, ∃ g ∈ r, g.sample_name ∉ ordering := by
      rcases hbad with ⟨g, hg, hn⟩
      rw [← runsBy_join _call_key gts] at hg
      rcases List.mem_flatten.mp hg with ⟨r, hr, hgr⟩
      exact ⟨r, hr, g, hgr, hn⟩
    constructor
    · rw [g2r_eq]
      exact exMapM_buildRun_err_any ordering (_fields_from_columns cols).1
        (_fields_from_columns cols).2 (runsBy _call_key gts) hbadruns
    · intro hwf
      rw [g2r_eq]
      exact exMapM_buildRun_err_wf ordering cols (runsBy _call_key gts)
        (runsBy_ne_nil _call_key gts)
        (fun r hr g hg => List.all_eq_true.mp hwf g
          (by rw [← runsBy_join _call_key gts]
              exact List.mem_flatten.mpr ⟨r, hr, hg⟩))
        hbadruns
  · exact g2r_not_sampleNot gts ordering cols

/-- C4 witness: the precondition violation raised on a one call batch. -/
theorem claim_C4_witness :
    ∃ n, genotypes_to_records [gUnknown] ["A"] []
      = Except.error (.sampleNotInOrdering n) ∧ n ∉ (["A"] : List String) :=
  ((claim_C4 [gUnknown] ["A"] []).1
    ⟨gUnknown, List.mem_cons_self _ _, by decide⟩).2 (by decide)

/-- C5: every emitted record takes its locus level columns from the first
call of its reordered group, ALT and FILTER through _maybe_split, and its
INFO names and values from that same first call; and _maybe_split splits a
non empty string on commas and turns the empty string into an absent
value. -/
theorem claim_C5 :
    (∀ gts so cols recs, genotypes_to_records gts so cols = .ok recs →
      ∀ rec ∈ recs, ∃ run ∈ runsBy _call_key gts, ∃ sorted g0 rest,
        order run so = .ok sorted ∧ sorted = g0 :: rest ∧
        rec.chrom = g0.contig ∧ rec.pos = g0.position ∧ rec.id = g0.id ∧
        rec.ref = g0.reference ∧ rec.qual = g0.quality ∧
        rec.alt = _maybe_split g0.alternates ∧ rec.filter = _maybe_split g0.filters ∧
        rec.info.map (fun p => p.1) = (_fields_from_columns cols).1 ∧
        (∀ p ∈ rec.info, ∃ raw, getField g0 ("info:" ++ p.1) = some raw ∧
          vcf_format (some raw) = .ok p.2)) ∧
    (∀ s : String, _maybe_split s
      = if s = "" then none else some ((splitComma s.data).map String.mk)) := by
  constructor
  · intro gts so cols recs h rec hrec
    rw [g2r_eq] at h
    rcases exMapM_mem_inv _ _ _ h rec hrec with ⟨run, hrun, hbr⟩
    rcases buildRun_rec_inv so (_fields_from_columns cols).1 (_fields_from_columns cols).2
      run rec hbr with
      ⟨sorted, g0, rest, ho, hsort, h1, h2, h3, h4, h5, h6, h7, _, hi1, hi2, _, _⟩
    exact ⟨run, hrun, sorted, g0, rest, ho, hsort, h1, h2, h3, h4, h5, h6, h7, hi1, hi2⟩
  · intro s
    rfl

/-- C5 witness: the representative first call facts evaluated on the two
sample example record. -/
theorem claim_C5_witness :
    ∃ run ∈ runsBy _call_key [gNormal, gTumor], ∃ sorted g0 rest,
      order run ["TUMOR", "NORMAL"] = .ok sorted ∧ sorted = g0 :: rest ∧
      c5Rec.chrom = g0.contig ∧ c5Rec.pos = g0.position ∧ c5Rec.id = g0.id ∧
      c5Rec.ref = g0.reference ∧ c5Rec.qual = g0.quality ∧
      c5Rec.alt = _maybe_split g0.alternates ∧ c5Rec.filter = _maybe_split g0.filters ∧
      c5Rec.info.map (fun p => p.1) = (_fields_from_columns ["sample:GT"]).1 ∧
      (∀ p ∈ c5Rec.info, ∃ raw, getField g0 ("info:" ++ p.1) = some raw ∧
        vcf_format (some raw) = .ok p.2) :=
  claim_C5.1 [gNormal, gTumor] ["TUMOR", "NORMAL"] ["sample:GT"] [c5Rec]
    (by decide) c5Rec (List.mem_singleton.mpr rfl)

/-- C7 counterexample: on an input with whitespace just inside the opening
bracket the code keeps that whitespace, while the strip-then-trim reading of
the spec removes it. -/
theorem claim_C7_counterexample :
    pyIntParse "[ a,b]" = none ∧ pyFloatParse "[ a,b]" = none ∧
    1 < (splitComma ("[ a,b]" : String).data).length ∧
    ("[ a,b]" : String).data.head? = some '[' ∧
    ("[ a,b]" : String).data.getLast? = some ']' ∧
    vcf_format (some "[ a,b]") = Except.ok (.str " a,b") ∧
    spec_bracket_render "[ a,b]" = "a,b" ∧
    (" a,b" : String) ≠ "a,b" := by decide

/-- C7 amended: on a bracketed multi piece value the formatter trims each
piece of the original string, then removes the leading bracket of the first
trimmed piece and the final character of the last trimmed piece, and rejoins
with commas; whitespace immediately inside the brackets therefore
survives. -/
theorem claim_C7 (s : String)
    (hI : pyIntParse s = none) (hF : pyFloatParse s = none)
    (hlen : 1 < (splitComma s.data).length)
    (hhead : s.data.head? = some '[') (hlast : s.data.getLast? = some ']') :
    ∃ p1 pr, (splitComma s.data).map stripChars = p1 :: pr ∧
      p1.head? = some '[' ∧ pr ≠ [] ∧
      vcf_format (some s) = Except.ok (.str (String.mk
        (joinComma (p1.drop 1 :: mapLast List.dropLast pr)))) := by
  cases hd : s.data with
  | nil => rw [hd] at hhead; cases hhead
  | cons c t =>
    have hc : c = '[' := by
      rw [hd] at hhead
      simpa using hhead
    subst hc
    rw [← hd]
    rcases splitComma_head '[' t (by decide) with ⟨u, rs, hsplit⟩
    have hsplit2 : splitComma s.data = ('[' :: u) :: rs := by rw [hd]; exact hsplit
    rcases stripChars_cons_head '[' u (by decide) with ⟨m, hstrip⟩
    have hmap : (splitComma s.data).map stripChars = ('[' :: m) :: rs.map stripChars := by
      rw [hsplit2, List.map_cons, hstrip]
    have hrs : rs ≠ [] := by
      intro hnil
      rw [hsplit2, hnil] at hlen
      simp at hlen
    have hprne : rs.map stripChars ≠ [] := by
      intro hmnil
      rw [List.map_eq_nil_iff] at hmnil
      exact hrs hmnil
    rcases splitComma_last_mem s.data ']' (by decide) hlast with ⟨plast, hplast, hmemlast⟩
    have hrslast : rs.getLast? = some plast := by
      rw [hsplit2] at hplast
      cases rs with
      | nil => exact absurd rfl hrs
      | cons b t2 =>
        rw [List.getLast?_cons_cons] at hplast
        exact hplast
    have hlastmapeq : (rs.map stripChars).getLast? = some (stripChars plast) := by
      rw [List.getLast?_map, hrslast]
      rfl
    have hlastne : ∀ p, (('[' :: m).drop 1 :: rs.map stripChars).getLast? = some p
        → p ≠ [] := by
      intro p hp
      cases hpr : rs.map stripChars with
      | nil => exact absurd hpr hprne
      | cons b t2 =>
        rw [hpr] at hp
        rw [List.getLast?_cons_cons] at hp
        rw [hpr] at hlastmapeq
        rw [hp] at hlastmapeq
        have hpeq : p = stripChars plast := (Option.some.injEq _ _).mp hlastmapeq
        rw [hpeq]
        intro hnil
        have := mem_stripChars plast ']' (by decide) hmemlast
        rw [hnil] at this
        cases this
    refine ⟨'[' :: m, rs.map stripChars, hmap, rfl, hprne, ?_⟩
    rw [vcf_format_some_eq, hI, hF]
    show (if (splitComma s.data).length ≤ 1 then Except.ok (PyValue.str s)
      else if s.data.head? ≠ some '[' then
        Except.ok (.str (String.mk (joinComma ((splitComma s.data).map stripChars))))
      else if s.data.getLast? ≠ some ']' then Except.error Err.assertionError
      else Except.ok (.str (String.mk
        (((joinComma ((splitComma s.data).map stripChars)).drop 1).dropLast))))
      = Except.ok (.str (String.mk
        (joinComma (('[' :: m).drop 1 :: mapLast List.dropLast (rs.map stripChars)))))
    rw [if_neg (by omega), if_neg (fun hcon => hcon hhead), if_neg (fun hcon => hcon hlast)]
    rw [hmap]
    rw [joinComma_drop1 ('[' :: m) (rs.map stripChars) (by simp)]
    rw [joinComma_dropLast (('[' :: m).drop 1 :: rs.map stripChars) hlastne]
    cases hpr : rs.map stripChars with
    | nil => exact absurd hpr hprne
    | cons b t2 =>
      rw [mapLast_cons_cons]

/-- C7 witness: the amended bracket rendering at a concrete bracketed
value with inner whitespace. -/
theorem claim_C7_witness :
    ∃ p1 pr, (splitComma ("[ a,b]" : String).data).map stripChars = p1 :: pr ∧
      p1.head? = some '[' ∧ pr ≠ [] ∧
      vcf_format (some "[ a,b]") = Except.ok (.str (String.mk
        (joinComma (p1.drop 1 :: mapLast List.dropLast pr)))) :=
  claim_C7 "[ a,b]" (by decide) (by decide) (by decide) (by decide) (by decide)

/-- C9 counterexample: the bracket branch can emit a value that itself opens
with a bracket it does not close, so a second application raises instead of
returning the same text. -/
theorem claim_C9_counterexample :
    pyIntParse "[[a],b]" = none ∧ pyFloatParse "[[a],b]" = none ∧
    vcf_format (some "[[a],b]") = Except.ok (.str "[a],b") ∧
    vcf_format (some "[a],b") = Except.error Err.assertionError := by decide

/-- C9 amended: the formatter is idempotent on the text path, and on the
comma list path whenever neither the input nor its normalized result opens
with a bracket: under those conditions a second application returns the
first result unchanged. -/
theorem claim_C9 (s r : String)
    (hI : pyIntParse s = none) (hF : pyFloatParse s = none)
    (hres : vcf_format (some s) = Except.ok (.str r))
    (hside : (splitComma s.data).length ≤ 1 ∨
      (s.data.head? ≠ some '[' ∧ r.data.head? ≠ some '[')) :
    vcf_format (some r) = Except.ok (.str r) := by
  have horig := hres
  rw [vcf_format_some_eq, hI, hF] at hres
  have hres2 : (if (splitComma s.data).length ≤ 1 then Except.ok (PyValue.str s)
      else if s.data.head? ≠ some '[' then
        Except.ok (.str (String.mk (joinComma ((splitComma s.data).map stripChars))))
      else if s.data.getLast? ≠ some ']' then Except.error Err.assertionError
      else Except.ok (.str (String.mk
        (((joinComma ((splitComma s.data).map stripChars)).drop 1).dropLast))))
      = Except.ok (.str r) := hres
  by_cases hlen : (splitComma s.data).length ≤ 1
  · rw [if_pos hlen] at hres2
    have hsr : s = r :=
      (PyValue.str.injEq _ _).mp ((Except.ok.injEq _ _).mp hres2)
    rw [hsr] at horig
    exact horig
  · rcases hside with hside | ⟨hheadS, hheadR⟩
    · exact absurd hside hlen
    · rw [if_neg hlen, if_pos hheadS] at hres2
      have hr : r = String.mk (joinComma ((splitComma s.data).map stripChars)) :=
        ((PyValue.str.injEq _ _).mp ((Except.ok.injEq _ _).mp hres2)).symm
      have hrdata : r.data = joinComma ((splitComma s.data).map stripChars) := by
        rw [hr]
      have hlen2 : 2 ≤ ((splitComma s.data).map stripChars).length := by
        rw [List.length_map]; omega
      have hcm : ',' ∈ r.data := by
        rw [hrdata]
        exact comma_mem_joinComma _ hlen2
      have hInt : pyIntParse r = none := pyIntParse_comma r hcm
      have hFl : pyFloatParse r = none := pyFloatParse_comma r hcm
      have hpieces : ∀ p ∈ (splitComma s.data).map stripChars, ',' ∉ p := by
        intro p hp
        rcases List.mem_map.mp hp with ⟨q, hq, hqp⟩
        intro hcp
        rw [← hqp] at hcp
        exact splitComma_pieces s.data q hq (stripChars_subset q ',' hcp)
      have hsplit : splitComma r.data = (splitComma s.data).map stripChars := by
        rw [hrdata]
        exact splitComma_joinComma _
          (by intro hnil; rw [hnil] at hlen2; simp at hlen2) hpieces
      have hstripmap : ((splitComma s.data).map stripChars).map stripChars
          = (splitComma s.data).map stripChars := by
        rw [List.map_map]
        apply List.map_congr_left
        intro a _
        exact stripChars_idem a
      have hc1 : ¬((splitComma r.data).length ≤ 1) := by
        rw [hsplit, List.length_map]
        omega
      rw [vcf_format_some_eq, hInt, hFl]
      show (if (splitComma r.data).length ≤ 1 then Except.ok (PyValue.str r)
        else if r.data.head? ≠ some '[' then
          Except.ok (.str (String.mk (joinComma ((splitComma r.data).map stripChars))))
        else if r.data.getLast? ≠ some ']' then Except.error Err.assertionError
        else Except.ok (.str (String.mk
          (((joinComma ((splitComma r.data).map stripChars)).drop 1).dropLast))))
        = Except.ok (.str r)
      rw [if_neg hc1, if_pos hheadR, hsplit, hstripmap, ← hr]

/-- C9 witness: a second application of the formatter on a normalized comma
list returns it unchanged. -/
theorem claim_C9_witness : vcf_format (some "a,b") = Except.ok (.str "a,b") :=
  claim_C9 "a , b" "a,b" (by decide) (by decide) (by decide) (by decide)
